import Mathlib

/-!
# Verification of the rustos kernel core

A shallow embedding of the core kernel subsystems of the `rustos`
repository (bin allocator, page-table engine, scheduler, syscall layer),
with theorems checking the natural-language specification against the code.

Machine integers (`usize`, `u64`, `u32`) are modelled as `Nat` with explicit
bounds and wraparound where the code relies on it.  Fallible or panicking
code returns `Option` (with `none` for a panic) or a dedicated result type.
-/

namespace RustOS

/-- 2^64, the modulus of `usize` arithmetic. -/
def USIZE : Nat := 2 ^ 64

/-- `core::alloc::Layout`: a size and an alignment.  A well-formed Rust
`Layout` additionally guarantees `align` is a power of two and `size`
fits in `isize`; theorems carry those facts as hypotheses. -/
structure Layout where
  size : Nat
  align : Nat
deriving DecidableEq, Repr

/-! ## allocator/util.rs -/

/-- `checked_add` on `usize`. -/
def checkedAdd (a b : Nat) : Option Nat :=
  if a + b < USIZE then some (a + b) else none

/-- `allocator::util::align_up`.  Returns `none` where the Rust code panics:
on a non-power-of-two `align` (the release-mode wrapping `align & align - 1`
test lets `align == 0` through, but `addr % 0` then panics) and on overflow
of the aligning addition. -/
def align_up (addr align : Nat) : Option Nat :=
  if align &&& (align - 1) ≠ 0 then none
  else if align = 0 then none
  else if addr % align = 0 then some addr
  else checkedAdd addr (align - addr % align)

/-- `allocator::util::is_aligned` (callers only use power-of-two `align`). -/
def is_aligned (addr align : Nat) : Bool :=
  addr % align == 0

/-! ## allocator/bin.rs : size-class mapping -/

/-- One iteration of `map_to_bin`'s loop body: the shift amount `k`
contributed by table entry `mask` at width `j` (`let k = if (s & t[i]) == 0
{ 0 } else { j }`). -/
def mstep (j mask s : Nat) : Nat :=
  if s &&& mask = 0 then 0 else j

/-- `bin.rs::map_to_bin`, the branch-free `⌈log₂⌉` computation, embedded with
the source's six mask-and-shift steps and the release-mode wrapping of
`s - 1` at `s = 0` (which `Nat` subtraction reproduces: both sides of the
`&` test give `0`).  The per-step increments of `y` are accumulated in one
sum, and the final `saturating_sub(3)` is `Nat` subtraction. -/
def map_to_bin (size : Nat) : Nat :=
  let y0 : Nat := if size &&& (size - 1) = 0 then 0 else 1
  let k0 := mstep 32 0xFFFFFFFF00000000 size
  let s1 := size >>> k0
  let k1 := mstep 16 0x00000000FFFF0000 s1
  let s2 := s1 >>> k1
  let k2 := mstep 8 0x000000000000FF00 s2
  let s3 := s2 >>> k2
  let k3 := mstep 4 0x00000000000000F0 s3
  let s4 := s3 >>> k3
  let k4 := mstep 2 0x000000000000000C s4
  let s5 := s4 >>> k4
  let k5 := mstep 1 0x0000000000000002 s5
  y0 + k0 + k1 + k2 + k3 + k4 + k5 - 3

/-- `bin.rs::map_to_size`: `1 << (bin + 3)`. -/
def map_to_size (bin : Nat) : Nat :=
  1 <<< (bin + 3)

/-! ## allocator/bin.rs : state and operations

The intrusive `LinkedList` type lives in a file of the repository that is
not under `src/`.  Modelled from the spec: a free list is an "ordered
sequence of free block addresses"; `push` places a block at the front,
iteration visits the sequence in order, and popping a node removes that
element.  (None of the claims below depends on the front-vs-back choice.)
-/

/-- The bin allocator's state: 29 free lists, the bump frontier
`free_start` and the heap's end `free_end`. -/
structure AllocState where
  bins : List (List Nat)
  free_start : Nat
  free_end : Nat
deriving DecidableEq, Repr

/-- `Allocator::new(start, end)`: all 29 free lists empty. -/
def allocNew (start end_ : Nat) : AllocState :=
  ⟨List.replicate 29 [], start, end_⟩

/-- Replace free list `i`. -/
def setBin (σ : AllocState) (i : Nat) (l : List Nat) : AllocState :=
  { σ with bins := σ.bins.set i l }

/-- The scan inside `Allocator::insert_block`: find the first node that is a
buddy of `block` (at `block ± curr`), returning the lower address of the
merged pair and the list with that node removed. -/
def findNeighbor : List Nat → Nat → Nat → Option (Nat × List Nat)
  | [], _, _ => none
  | n :: rest, block, curr =>
    if n + curr = block then some (n, rest)
    else if block + curr = n then some (block, rest)
    else
      match findNeighbor rest block curr with
      | some (low, rest2) => some (low, n :: rest2)
      | none => none

/-- `Allocator::insert_block`, with `none` for the panic when `map_to_bin
size ≥ 29` makes `self.bins[bin_index]` go out of bounds.  The recursion
(doubling `size` after a merge) is driven by fuel; every entry point passes
fuel 30, which the strictly increasing bin index can never exhaust first. -/
def insert_block : Nat → AllocState → Nat → Nat → Option AllocState
  | 0, _, _, _ => none
  | fuel + 1, σ, block, size =>
    let bin_index := map_to_bin size
    match σ.bins[bin_index]? with
    | none => none
    | some nodes =>
      match findNeighbor nodes block (map_to_size bin_index) with
      | some (low, rest) => insert_block fuel (setBin σ bin_index rest) low (size * 2)
      | none => some (setBin σ bin_index (block :: nodes))

/-- `Allocator::reinsert_block`: peel off chunks of growing class size.
Fuel-driven for the same reason; all call sites use fuel 31. -/
def reinsert_block : Nat → AllocState → Nat → Nat → Nat → Option AllocState
  | 0, _, _, _, _ => none
  | fuel + 1, σ, block, bin_index, size =>
    if size = 0 then some σ
    else
      let insert_size := map_to_size bin_index
      match insert_block 30 σ block insert_size with
      | none => none
      | some σ2 => reinsert_block fuel σ2 (block + insert_size) (bin_index + 1) (size - insert_size)

/-- The first node of a free list whose address is aligned to `align`,
with the list after popping it (the inner loop of `Allocator::alloc`). -/
def findAligned : List Nat → Nat → Option (Nat × List Nat)
  | [], _ => none
  | n :: rest, align =>
    if is_aligned n align then some (n, rest)
    else
      match findAligned rest align with
      | some (b, r) => some (b, n :: r)
      | none => none

/-- The `while curr_bin < self.bins.len()` loop of `Allocator::alloc`:
scan classes from `curr_bin` up, returning the popped block, the class it
came from, and the updated state.  Fuel 30 covers all 29 iterations. -/
def scan_bins : Nat → AllocState → Nat → Layout → Option (Nat × Nat × AllocState)
  | 0, _, _, _ => none
  | fuel + 1, σ, curr_bin, layout =>
    if curr_bin < σ.bins.length then
      match σ.bins[curr_bin]? with
      | none => none
      | some nodes =>
        match findAligned nodes layout.align with
        | some (block, rest) => some (block, curr_bin, setBin σ curr_bin rest)
        | none => scan_bins fuel σ (curr_bin + 1) layout
    else none

/-- `Allocator::get_block_from_free_mem`.  Outer `none` = panic (inside
`align_up`); `some none` = cannot satisfy the request (the caller returns
the null sentinel); `some (some _)` = a block carved from the frontier. -/
def get_block_from_free_mem (σ : AllocState) (layout : Layout) :
    Option (Option (Nat × AllocState)) :=
  match align_up σ.free_start layout.align with
  | none => none
  | some block_start =>
    let desired_size := map_to_size (map_to_bin layout.size)
    match checkedAdd block_start desired_size with
    | some res =>
      if res > σ.free_end then some none
      else some (some (block_start, { σ with free_start := res }))
    | none => some none

/-- Convenience constructor for free-list states: all 29 lists empty
except the listed ones. -/
def binsOnly (l : List (Nat × List Nat)) : List (List Nat) :=
  l.foldl (fun bs p => bs.set p.1 p.2) (List.replicate 29 [])

/-- Result of `Allocator::alloc`: a panic, the null sentinel (with the
state the allocator is left in), or a block address with the new state. -/
inductive BinRes where
  | fatal : BinRes
  | null : AllocState → BinRes
  | ok : Nat → AllocState → BinRes
deriving DecidableEq, Repr

/-- `Allocator::alloc` (LocalAlloc impl in bin.rs). -/
def binAlloc (σ : AllocState) (layout : Layout) : BinRes :=
  let starting_bin_index := map_to_bin layout.size
  let desired_size := map_to_size starting_bin_index
  match scan_bins 30 σ starting_bin_index layout with
  | some (block, curr_bin, σ2) =>
    if curr_bin = starting_bin_index then .ok block σ2
    else
      let to_reinsert := block + desired_size
      let size := map_to_size curr_bin - desired_size
      match reinsert_block 31 σ2 to_reinsert starting_bin_index size with
      | none => .fatal
      | some σ3 => .ok block σ3
  | none =>
    match get_block_from_free_mem σ layout with
    | none => .fatal
    | some none => .null σ
    | some (some (block, σ2)) => .ok block σ2

/-- `Allocator::dealloc` (LocalAlloc impl in bin.rs); `none` = panic. -/
def binDealloc (σ : AllocState) (ptr : Nat) (layout : Layout) : Option AllocState :=
  let bin := map_to_bin layout.size
  let size := map_to_size bin
  insert_block 30 σ ptr size

/-- A step of an allocator client: one `alloc` or one `dealloc` call. -/
inductive AOp where
  | alloc : Layout → AOp
  | dealloc : Nat → Layout → AOp
deriving DecidableEq, Repr

/-- Run a sequence of allocator calls, requiring every `alloc` to succeed
and every `dealloc` not to panic. -/
def runOps : AllocState → List AOp → Option AllocState
  | σ, [] => some σ
  | σ, AOp.alloc l :: rest =>
    match binAlloc σ l with
    | .ok _ σ2 => runOps σ2 rest
    | _ => none
  | σ, AOp.dealloc p l :: rest =>
    match binDealloc σ p l with
    | some σ2 => runOps σ2 rest
    | none => none

/-- Free-list states whose classes 3 and up are all empty. -/
def bins3 (b0 b1 b2 : List Nat) : List (List Nat) :=
  b0 :: b1 :: b2 :: List.replicate 26 []

/-- Allocator states reachable from a fresh allocator by `alloc`/`dealloc`
calls that respect the allocator's documented preconditions, together with
the multiset of outstanding allocations (address, layout).  `alloc`
requires a positive size, a power-of-two alignment and a size representable
in a Rust `Layout` (at most `isize::MAX`); `dealloc` requires a pointer
previously returned by this allocator with the same layout and not yet
freed. -/
inductive Reach : AllocState → List (Nat × Layout) → Prop where
  | fresh (s e : Nat) (hse : s ≤ e) (he : e < USIZE) : Reach (allocNew s e) []
  | alloc {σ σ2 : AllocState} {A : List (Nat × Layout)} {l : Layout} {a : Nat} :
      Reach σ A → 0 < l.size → l.size < 2 ^ 63 → (∃ k, l.align = 2 ^ k) →
      binAlloc σ l = .ok a σ2 → Reach σ2 ((a, l) :: A)
  | allocNull {σ σ2 : AllocState} {A : List (Nat × Layout)} {l : Layout} :
      Reach σ A → 0 < l.size → l.size < 2 ^ 63 → (∃ k, l.align = 2 ^ k) →
      binAlloc σ l = .null σ2 → Reach σ2 A
  | dealloc {σ σ2 : AllocState} {A : List (Nat × Layout)} {a : Nat} {l : Layout} :
      Reach σ A → (a, l) ∈ A → binDealloc σ a l = some σ2 →
      Reach σ2 (A.erase (a, l))

/-- The free-list bound invariant: every block in class `j` lies, with its
whole class-size extent, below the bump frontier. -/
def BinsInv (bins : List (List Nat)) (fs : Nat) : Prop :=
  ∀ j nodes, bins[j]? = some nodes → ∀ x ∈ nodes, x + 2 ^ (j + 3) ≤ fs

/-- The reachability invariant of the allocator. -/
def GoodState (σ : AllocState) (A : List (Nat × Layout)) : Prop :=
  σ.bins.length = 29 ∧
  σ.free_start ≤ σ.free_end ∧
  σ.free_end < USIZE ∧
  BinsInv σ.bins σ.free_start ∧
  ∀ p ∈ A, p.1 + map_to_size (map_to_bin p.2.size) ≤ σ.free_start ∧
    0 < p.2.size ∧ p.2.size < 2 ^ 63



/-! ## vm/pagetable.rs

The `RawL3Entry` descriptor type comes from the `aarch64::vmsa` crate of
this repository, which is not under `src/`.  Modelled from the spec: a
64-bit descriptor with fields VALID, TYPE, ATTR, AP, SH, AF and ADDR
(physical address bits [47:16]); `set_value` writes a field and
`set_masked` stores a value masked to the field's bits, so the entry is
represented as a record of field values, with ADDR holding the masked
address bits. -/

/-- `PAGE_SIZE`: the 64 KiB translation granule. -/
def PAGE_SIZE : Nat := 65536

/-- The `Page::layout()` used for page allocations: size = align = 64 KiB. -/
def pageLayout : Layout := ⟨PAGE_SIZE, PAGE_SIZE⟩

/-- An L3 descriptor as a record of its VMSA fields. -/
structure RawL3Entry where
  valid : Nat
  typ : Nat
  attr : Nat
  ap : Nat
  sh : Nat
  af : Nat
  addr : Nat
deriving DecidableEq, Repr

/-- The all-zero descriptor `RawL3Entry::new(0)`. -/
def zeroL3 : RawL3Entry := ⟨0, 0, 0, 0, 0, 0, 0⟩

/-- `set_masked(pa, RawL3Entry::ADDR)`: keep bits [47:16] of `pa`. -/
def addrMasked (pa : Nat) : Nat :=
  pa &&& 0x0000FFFFFFFF0000

/-- The L3 entry written by `UserPageTable::alloc`: VALID=1, TYPE=1,
ATTR=0b000, AP=0b01 (the `_perm` parameter is ignored by the code),
SH=0b11, AF=1, ADDR = the page address masked to the ADDR field. -/
def mkUserL3Entry (page : Nat) : RawL3Entry :=
  ⟨1, 1, 0, 0b01, 0b11, 1, addrMasked page⟩

/-- The spec's AP encoding of a page permission.  Modelled from the spec:
§4.2 says AP encodes `perm ∈ {RW, RO, RWX}` with only the write-execute
distinction collapsed (note (c)), i.e. the ARM EL0 encodings RW ↦ 0b01,
RO ↦ 0b11, RWX ↦ 0b01. -/
inductive PagePerm where
  | RW : PagePerm
  | RO : PagePerm
  | RWX : PagePerm
deriving DecidableEq, Repr

/-- Modelled from the spec: the AP field value that encodes each permission
(RW=0b01, RO=0b11, RWX collapsed to 0b01 per design note (c)). -/
def apSpec : PagePerm → Nat
  | .RW => 0b01
  | .RO => 0b11
  | .RWX => 0b01

/-- A page table as its two L3 tables (the L2 level is fixed by
construction and not consulted by any of the verified operations). -/
structure PageTable where
  l3 : List (List RawL3Entry)
deriving DecidableEq, Repr

/-- `UserPageTable::new()` / `PageTable::new`: both L3 tables zeroed. -/
def PageTable.new : PageTable :=
  ⟨[List.replicate 8192 zeroL3, List.replicate 8192 zeroL3]⟩

/-- Well-formedness fixed by the Rust types: two L3 tables of 8192
entries. -/
def PTWF (pt : PageTable) : Prop :=
  pt.l3.length = 2 ∧ ∀ t ∈ pt.l3, t.length = 8192

/-- `PageTable::locate`: panics (`none`) unless `va` is page-aligned;
L2 index is bit 29, L3 index is bits [28:16]. -/
def locate (va : Nat) : Option (Nat × Nat) :=
  if va % (PAGE_SIZE : Nat) ≠ 0 then none
  else some ((va &&& (1 <<< 29)) >>> 29, (va &&& (0x1FFF <<< 16)) >>> 16)

/-- `PageTable::set_entry`. -/
def set_entry (pt : PageTable) (va : Nat) (e : RawL3Entry) : Option PageTable :=
  match locate va with
  | none => none
  | some (i2, i3) =>
    match pt.l3[i2]? with
    | none => none
    | some t => some ⟨pt.l3.set i2 (t.set i3 e)⟩

/-- The L3 entry selected by `va` (the read counterpart of `set_entry`,
used to state what `alloc` wrote). -/
def get_entry (pt : PageTable) (va : Nat) : Option RawL3Entry :=
  match locate va with
  | none => none
  | some (i2, i3) =>
    match pt.l3[i2]? with
    | none => none
    | some t => t[i3]?

/-- Result of `UserPageTable::alloc`: a panic (carrying the allocator
state at the point of the panic) or success with the new allocator state,
the updated table and the allocated page's address. -/
inductive UPTRes where
  | panicked : AllocState → UPTRes
  | ok : AllocState → PageTable → Nat → UPTRes
deriving DecidableEq, Repr

/-- `UserPageTable::alloc(va, _perm)`, with the global `ALLOCATOR`
threaded explicitly.  Panics when `va < USER_IMG_BASE` (before any
allocation), when the allocator returns null (or address 0, the null
pointer), or when `locate` rejects the address. -/
def uptAlloc (base : Nat) (σ : AllocState) (pt : PageTable) (va : Nat)
    (_perm : PagePerm) : UPTRes :=
  if va < base then .panicked σ
  else
    match binAlloc σ pageLayout with
    | .fatal => .panicked σ
    | .null σ2 => .panicked σ2
    | .ok page σ2 =>
      if page = 0 then .panicked σ2
      else
        match set_entry pt (va - base) (mkUserL3Entry page) with
        | none => .panicked σ2
        | some pt2 => .ok σ2 pt2 page

/-- All L3 entries of the table, first table then second (the
`IntoIterator` chain). -/
def ptEntries (pt : PageTable) : List RawL3Entry :=
  pt.l3.foldr (fun t acc => t ++ acc) []

/-- The ADDR values of the valid entries, in iteration order. -/
def validPageAddrs (pt : PageTable) : List Nat :=
  ((ptEntries pt).filter (fun e => e.valid == 1)).map (fun e => e.addr)

/-- Deallocate a list of pages in order (`none` propagates a panic). -/
def deallocList : AllocState → List Nat → Option AllocState
  | σ, [] => some σ
  | σ, a :: rest =>
    match binDealloc σ a pageLayout with
    | none => none
    | some σ2 => deallocList σ2 rest

/-- The body of `Drop for UserPageTable` over an explicit entry list:
every VALID entry's ADDR is deallocated with the page layout. -/
def dropGo : AllocState → List RawL3Entry → Option AllocState
  | σ, [] => some σ
  | σ, e :: rest =>
    if e.valid = 1 then
      match binDealloc σ e.addr pageLayout with
      | none => none
      | some σ2 => dropGo σ2 rest
    else dropGo σ rest

/-- `Drop for UserPageTable`: iterate both L3 tables, returning every
valid entry's ADDR to the allocator. -/
def dropUPT (σ : AllocState) (pt : PageTable) : Option AllocState :=
  dropGo σ (ptEntries pt)

/-- Address `a` lies inside some block of some free list ("is back in a
free list", up to coalescing into a larger block). -/
def covered (σ : AllocState) (a : Nat) : Prop :=
  ∃ j nodes b, σ.bins[j]? = some nodes ∧ b ∈ nodes ∧ b ≤ a ∧ a < b + 2 ^ (j + 3)

/-! ## process/scheduler.rs and process/process.rs

State ∈ {Ready, Running, Waiting(pred), Dead}.  The only Waiting
predicates the kernel constructs are the sleep predicates of
`sys_sleep`, closing over a `u32` start time and a `u32` duration, so
`Waiting` carries that pair.  The trap frame is modelled by the fields
the scheduler and the sleep predicate touch: `tpidr` and `x_regs[0]`. -/

/-- The modelled slice of a `TrapFrame`. -/
structure STrapFrame where
  tpidr : Nat
  x0 : Nat
deriving DecidableEq, Repr

/-- `process::State`. -/
inductive PState where
  | Ready : PState
  | Running : PState
  | Dead : PState
  | Waiting : Nat → Nat → PState
deriving DecidableEq, Repr

/-- A `Process`: its saved context and its scheduling state (stack and
page table do not interact with the scheduler logic). -/
structure Proc where
  context : STrapFrame
  state : PState
deriving DecidableEq, Repr

/-- The waiting state constructed by `sys_sleep(ms)` at time `now`
(milliseconds): the closure captures `start = now as u32` and `ms`. -/
def sys_sleep (now ms : Nat) : PState :=
  .Waiting (now % 2 ^ 32) ms

/-- `Process::is_ready`, polled at `time` (current time in ms): `Ready`
is ready; a sleep predicate fires when the wrapping 32-bit difference
`time - start` reaches `ms`, writing the elapsed time into `x_regs[0]`
and leaving the state `Ready`; `Running` and `Dead` are never ready. -/
def isReadyPoll (time : Nat) (p : Proc) : Bool × Proc :=
  match p.state with
  | .Ready => (true, p)
  | .Running => (false, p)
  | .Dead => (false, p)
  | .Waiting start ms =>
    let t := time % 2 ^ 32
    let elapsed := (t + 2 ^ 32 - start) % 2 ^ 32
    if ms ≤ elapsed then
      (true, { context := { p.context with x0 := elapsed }, state := .Ready })
    else (false, p)

/-- `Scheduler`. -/
structure SchedState where
  processes : List Proc
  last_id : Option Nat
deriving DecidableEq, Repr

/-- `Scheduler::new()`. -/
def SchedState.new : SchedState := ⟨[], none⟩

/-- `Scheduler::add`: stamp the next PID into the trap frame, push to the
back; fails only on PID overflow (`checked_add` on a `u64` counter). -/
def schedAdd (s : SchedState) (p : Proc) : Option (Nat × SchedState) :=
  match s.last_id with
  | some last =>
    if last + 1 < 2 ^ 64 then
      some (last + 1,
        ⟨s.processes ++ [{ p with context := { p.context with tpidr := last + 1 } }],
          some (last + 1)⟩)
    else none
  | none =>
    some (0, ⟨s.processes ++ [{ p with context := { p.context with tpidr := 0 } }], some 0⟩)

/-- `Scheduler::schedule_out`: find the process whose `tpidr` matches the
trap frame, save the frame into it, set the given state, move it to the
back. -/
def schedule_out (s : SchedState) (new_state : PState) (tf : STrapFrame) :
    Bool × SchedState :=
  match s.processes.findIdx? (fun p => p.context.tpidr == tf.tpidr) with
  | none => (false, s)
  | some i =>
    match s.processes[i]? with
    | none => (false, s)
    | some _ =>
      (true, ⟨s.processes.eraseIdx i ++
        [{ context := tf, state := new_state }], s.last_id⟩)

/-- The polling walk of `Scheduler::switch_to`: the first process whose
`is_ready()` returns true, with the mutation its poll performed (failed
sleep polls leave the process unchanged). -/
def firstReady (time : Nat) : List Proc → Option (Nat × Proc)
  | [] => none
  | p :: rest =>
    match isReadyPoll time p with
    | (true, p2) => some (0, p2)
    | (false, _) =>
      match firstReady time rest with
      | some (i, q) => some (i + 1, q)
      | none => none

/-- `Scheduler::switch_to`: the first ready process becomes Running at the
front of the queue and its context is restored into `tf`; returns its PID. -/
def switch_to (time : Nat) (s : SchedState) (tf : STrapFrame) :
    Option Nat × STrapFrame × SchedState :=
  match firstReady time s.processes with
  | none => (none, tf, s)
  | some (i, p2) =>
    (some p2.context.tpidr, p2.context,
      ⟨{ p2 with state := .Running } :: s.processes.eraseIdx i, s.last_id⟩)

/-- Is a process Dead? (the scan inside `Scheduler::kill`). -/
def isDead : PState → Bool
  | .Dead => true
  | _ => false

/-- `Scheduler::kill`: schedule out as Dead, then remove and drop the
first Dead process in the queue. -/
def schedKill (s : SchedState) (tf : STrapFrame) : Option Nat × SchedState :=
  match schedule_out s .Dead tf with
  | (false, _) => (none, s)
  | (true, s2) =>
    match s2.processes.findIdx? (fun p => isDead p.state) with
    | none => (none, s2)
    | some i =>
      match s2.processes[i]? with
      | none => (none, s2)
      | some p => (some p.context.tpidr, ⟨s2.processes.eraseIdx i, s2.last_id⟩)

/-- Is a process Running? -/
def isRunning : PState → Bool
  | .Running => true
  | _ => false

/-- Scheduler states reachable from a fresh empty scheduler by any
sequence of `add`, `schedule_out`, `switch_to` and `kill` operations as
the kernel issues them (`add` receives freshly created `Ready` processes;
`schedule_out` is called with `Ready`, `Waiting` or `Dead`, never
`Running`). -/
inductive SReach : SchedState → Prop where
  | new : SReach SchedState.new
  | add {s : SchedState} {p : Proc} {id : Nat} {s2 : SchedState} :
      SReach s → p.state = .Ready → schedAdd s p = some (id, s2) → SReach s2
  | schedule_out {s : SchedState} {ns : PState} {tf : STrapFrame} :
      SReach s → ns ≠ .Running → SReach (schedule_out s ns tf).2
  | switch_to {s : SchedState} {time : Nat} {tf : STrapFrame} :
      SReach s → SReach (switch_to time s tf).2.2
  | kill {s : SchedState} {tf : STrapFrame} :
      SReach s → SReach (schedKill s tf).2

/-- Restricted reachability: as `SReach`, but `switch_to` is only invoked
in states with no Running process (i.e. after the running process has
been scheduled out, as `GlobalScheduler::switch` and `start` do). -/
inductive SReachR : SchedState → Prop where
  | new : SReachR SchedState.new
  | add {s : SchedState} {p : Proc} {id : Nat} {s2 : SchedState} :
      SReachR s → p.state = .Ready → schedAdd s p = some (id, s2) → SReachR s2
  | schedule_out {s : SchedState} {ns : PState} {tf : STrapFrame} :
      SReachR s → ns ≠ .Running → SReachR (schedule_out s ns tf).2
  | switch_to {s : SchedState} {time : Nat} {tf : STrapFrame} :
      SReachR s → (∀ p ∈ s.processes, p.state ≠ .Running) →
      SReachR (switch_to time s tf).2.2
  | kill {s : SchedState} {tf : STrapFrame} :
      SReachR s → SReachR (schedKill s tf).2


/-! # Theorems

## C5: the size-to-bin mapping is `max(0, clog2(size) - 3)` -/

theorem land_highmask_eq_zero_iff (j s : Nat) (hs : s < 2 ^ (2 * j)) :
    (s &&& ((2 ^ j - 1) * 2 ^ j) = 0) ↔ s < 2 ^ j := by
  constructor
  · intro h
    by_contra hlt
    push_neg at hlt
    have hs0 : s ≠ 0 := by
      have : (0:Nat) < 2 ^ j := Nat.pos_pow_of_pos j (by norm_num)
      omega
    have hjm : j ≤ Nat.log 2 s := (Nat.pow_le_iff_le_log one_lt_two hs0).mp hlt
    have hm2j : Nat.log 2 s < 2 * j := Nat.log_lt_of_lt_pow hs0 hs
    have h1 : s.testBit (Nat.log 2 s) = true := by
      rw [Nat.testBit_to_div_mod]
      have hle : 2 ^ Nat.log 2 s ≤ s := Nat.pow_log_le_self 2 hs0
      have hlt2 : s < 2 ^ (Nat.log 2 s + 1) := Nat.lt_pow_succ_log_self one_lt_two s
      have hdiv : s / 2 ^ Nat.log 2 s = 1 := by
        apply Nat.div_eq_of_lt_le
        · omega
        · have : (1 + 1) * 2 ^ Nat.log 2 s = 2 ^ (Nat.log 2 s + 1) := by ring
          omega
      simp [hdiv]
    have h2 : ((2 ^ j - 1) * 2 ^ j).testBit (Nat.log 2 s) = true := by
      rw [show (2 ^ j - 1) * 2 ^ j = (2 ^ j - 1) <<< j from (Nat.shiftLeft_eq _ _).symm]
      rw [Nat.testBit_shiftLeft]
      have : (2 ^ j - 1).testBit (Nat.log 2 s - j) = true := by
        rw [Nat.testBit_two_pow_sub_one]
        simp
        omega
      simp [this, hjm]
    have h3 := congrArg (fun x => x.testBit (Nat.log 2 s)) h
    simp only [Nat.testBit_and, Nat.zero_testBit, h1, h2, Bool.and_self] at h3
    exact Bool.noConfusion h3
  · intro h
    apply Nat.eq_of_testBit_eq
    intro i
    simp only [Nat.testBit_and, Nat.zero_testBit]
    rcases lt_or_le i j with hij | hij
    · have hmask : ((2 ^ j - 1) * 2 ^ j).testBit i = false := by
        rw [show (2 ^ j - 1) * 2 ^ j = (2 ^ j - 1) <<< j from (Nat.shiftLeft_eq _ _).symm]
        rw [Nat.testBit_shiftLeft]
        simp
        omega
      simp [hmask]
    · have hbit : s.testBit i = false := by
        apply Nat.testBit_lt_two_pow
        calc s < 2 ^ j := h
        _ ≤ 2 ^ i := Nat.pow_le_pow_right (by norm_num) hij
      simp [hbit]

theorem step_spec (j s : Nat) (h1 : 0 < s) (h2 : s < 2 ^ (2 * j)) :
    0 < s >>> mstep j ((2 ^ j - 1) * 2 ^ j) s ∧
    s >>> mstep j ((2 ^ j - 1) * 2 ^ j) s < 2 ^ j ∧
    Nat.log 2 s =
      mstep j ((2 ^ j - 1) * 2 ^ j) s + Nat.log 2 (s >>> mstep j ((2 ^ j - 1) * 2 ^ j) s) := by
  unfold mstep
  by_cases hc : s &&& ((2 ^ j - 1) * 2 ^ j) = 0
  · have hlt : s < 2 ^ j := (land_highmask_eq_zero_iff j s h2).mp hc
    simp [hc, hlt, h1]
  · have hge : 2 ^ j ≤ s := by
      by_contra hh
      push_neg at hh
      exact hc ((land_highmask_eq_zero_iff j s h2).mpr hh)
    rw [if_neg hc]
    rw [Nat.shiftRight_eq_div_pow]
    have hp : (0:Nat) < 2 ^ j := Nat.pos_pow_of_pos j (by norm_num)
    have hpos : 0 < s / 2 ^ j := Nat.div_pos hge hp
    have hlt : s / 2 ^ j < 2 ^ j := by
      rw [Nat.div_lt_iff_lt_mul hp]
      calc s < 2 ^ (2 * j) := h2
      _ = 2 ^ j * 2 ^ j := by rw [← pow_add]; congr 1; ring
    refine ⟨hpos, hlt, ?_⟩
    have hub : s / 2 ^ j < 2 ^ (Nat.log 2 (s / 2 ^ j) + 1) :=
      Nat.lt_pow_succ_log_self one_lt_two _
    have hlb : 2 ^ Nat.log 2 (s / 2 ^ j) ≤ s / 2 ^ j := Nat.pow_log_le_self 2 hpos.ne'
    have hlb2 : 2 ^ (j + Nat.log 2 (s / 2 ^ j)) ≤ s := by
      rw [pow_add]
      calc 2 ^ j * 2 ^ Nat.log 2 (s / 2 ^ j) ≤ 2 ^ j * (s / 2 ^ j) :=
        Nat.mul_le_mul_left _ hlb
      _ ≤ s := by
        rw [Nat.mul_comm]
        exact Nat.div_mul_le_self s (2 ^ j)
    have hub2 : s < 2 ^ (j + Nat.log 2 (s / 2 ^ j) + 1) := by
      have := (Nat.div_lt_iff_lt_mul hp).mp hub
      calc s < 2 ^ (Nat.log 2 (s / 2 ^ j) + 1) * 2 ^ j := this
      _ = 2 ^ (j + Nat.log 2 (s / 2 ^ j) + 1) := by rw [← pow_add]; congr 1; ring
    have := Nat.log_eq_of_pow_le_of_lt_pow hlb2 hub2
    omega


theorem pow2_iff_land_pred (s : Nat) (h : 0 < s) :
    s &&& (s - 1) = 0 ↔ s = 2 ^ Nat.log 2 s := by
  constructor
  · intro hc
    by_contra hne
    have h1 : 2 ^ Nat.log 2 s ≤ s := Nat.pow_log_le_self 2 h.ne'
    have h2 : 2 ^ Nat.log 2 s < s := lt_of_le_of_ne h1 (fun e => hne e.symm)
    have h3 : s < 2 ^ (Nat.log 2 s + 1) := Nat.lt_pow_succ_log_self one_lt_two s
    have hb1 : s.testBit (Nat.log 2 s) = true := by
      rw [Nat.testBit_to_div_mod]
      have hdiv : s / 2 ^ Nat.log 2 s = 1 := by
        apply Nat.div_eq_of_lt_le
        · omega
        · have : (1 + 1) * 2 ^ Nat.log 2 s = 2 ^ (Nat.log 2 s + 1) := by ring
          omega
      simp [hdiv]
    have hb2 : (s - 1).testBit (Nat.log 2 s) = true := by
      rw [Nat.testBit_to_div_mod]
      have hdiv : (s - 1) / 2 ^ Nat.log 2 s = 1 := by
        apply Nat.div_eq_of_lt_le
        · omega
        · have : (1 + 1) * 2 ^ Nat.log 2 s = 2 ^ (Nat.log 2 s + 1) := by ring
          omega
      simp [hdiv]
    have h4 := congrArg (fun x => x.testBit (Nat.log 2 s)) hc
    simp only [Nat.testBit_and, Nat.zero_testBit, hb1, hb2, Bool.and_self] at h4
    exact Bool.noConfusion h4
  · intro he
    apply Nat.eq_of_testBit_eq
    intro i
    simp only [Nat.testBit_and, Nat.zero_testBit]
    rw [he, Nat.testBit_two_pow, Nat.testBit_two_pow_sub_one]
    by_cases heq : Nat.log 2 s = i
    · simp [heq]
    · simp [heq]

theorem clog2_eq_log2_add (s : Nat) (h : 0 < s) :
    Nat.clog 2 s = Nat.log 2 s + (if s &&& (s - 1) = 0 then 0 else 1) := by
  by_cases hc : s &&& (s - 1) = 0
  · rw [if_pos hc]
    have he : s = 2 ^ Nat.log 2 s := (pow2_iff_land_pred s h).mp hc
    conv_lhs => rw [he]
    rw [Nat.clog_pow 2 _ one_lt_two]
    omega
  · rw [if_neg hc]
    have h1 : 2 ^ Nat.log 2 s ≤ s := Nat.pow_log_le_self 2 h.ne'
    have hne : s ≠ 2 ^ Nat.log 2 s := fun he => hc ((pow2_iff_land_pred s h).mpr he)
    have h2 : 2 ^ Nat.log 2 s < s := lt_of_le_of_ne h1 (fun e => hne e.symm)
    have h3 : s < 2 ^ (Nat.log 2 s + 1) := Nat.lt_pow_succ_log_self one_lt_two s
    have hle : Nat.clog 2 s ≤ Nat.log 2 s + 1 := by
      calc Nat.clog 2 s ≤ Nat.clog 2 (2 ^ (Nat.log 2 s + 1)) :=
        Nat.clog_mono_right 2 (le_of_lt h3)
      _ = Nat.log 2 s + 1 := Nat.clog_pow 2 _ one_lt_two
    have hge : Nat.log 2 s + 1 ≤ Nat.clog 2 s := by
      have := (Nat.pow_lt_iff_lt_clog one_lt_two (x := s) (y := Nat.log 2 s)).mp h2
      omega
    omega


theorem map_to_bin_eq_clog (s : Nat) (h1 : 0 < s) (h64 : s < 2 ^ 64) :
    map_to_bin s = Nat.clog 2 s - 3 := by
  have e32 : (0xFFFFFFFF00000000 : Nat) = (2 ^ 32 - 1) * 2 ^ 32 := by norm_num
  have e16 : (0x00000000FFFF0000 : Nat) = (2 ^ 16 - 1) * 2 ^ 16 := by norm_num
  have e8 : (0x000000000000FF00 : Nat) = (2 ^ 8 - 1) * 2 ^ 8 := by norm_num
  have e4 : (0x00000000000000F0 : Nat) = (2 ^ 4 - 1) * 2 ^ 4 := by norm_num
  have e2 : (0x000000000000000C : Nat) = (2 ^ 2 - 1) * 2 ^ 2 := by norm_num
  have e1 : (0x0000000000000002 : Nat) = (2 ^ 1 - 1) * 2 ^ 1 := by norm_num
  have h64a : s < 2 ^ (2 * 32) := by
    have e : (2:Nat) ^ (2 * 32) = 2 ^ 64 := by norm_num
    rw [e]
    exact h64
  rw [clog2_eq_log2_add s h1]
  simp only [map_to_bin]
  obtain ⟨q1, b1, l1⟩ := step_spec 32 s h1 h64a
  rw [← e32] at q1 b1 l1
  set t1 := s >>> mstep 32 0xFFFFFFFF00000000 s with ht1
  clear_value t1
  obtain ⟨q2, b2, l2⟩ := step_spec 16 t1 q1 (by
    have e : (2:Nat) ^ (2 * 16) = 2 ^ 32 := by norm_num
    rw [e]
    exact b1)
  rw [← e16] at q2 b2 l2
  set t2 := t1 >>> mstep 16 0x00000000FFFF0000 t1 with ht2
  clear_value t2
  obtain ⟨q3, b3, l3⟩ := step_spec 8 t2 q2 (by
    have e : (2:Nat) ^ (2 * 8) = 2 ^ 16 := by norm_num
    rw [e]
    exact b2)
  rw [← e8] at q3 b3 l3
  set t3 := t2 >>> mstep 8 0x000000000000FF00 t2 with ht3
  clear_value t3
  obtain ⟨q4, b4, l4⟩ := step_spec 4 t3 q3 (by
    have e : (2:Nat) ^ (2 * 4) = 2 ^ 8 := by norm_num
    rw [e]
    exact b3)
  rw [← e4] at q4 b4 l4
  set t4 := t3 >>> mstep 4 0x00000000000000F0 t3 with ht4
  clear_value t4
  obtain ⟨q5, b5, l5⟩ := step_spec 2 t4 q4 (by
    have e : (2:Nat) ^ (2 * 2) = 2 ^ 4 := by norm_num
    rw [e]
    exact b4)
  rw [← e2] at q5 b5 l5
  set t5 := t4 >>> mstep 2 0x000000000000000C t4 with ht5
  clear_value t5
  obtain ⟨q6, b6, l6⟩ := step_spec 1 t5 q5 (by
    have e : (2:Nat) ^ (2 * 1) = 2 ^ 2 := by norm_num
    rw [e]
    exact b5)
  rw [← e1] at q6 b6 l6
  set t6 := t5 >>> mstep 1 0x0000000000000002 t5 with ht6
  clear_value t6
  have hb6 : t6 < 2 := by
    have e : (2:Nat) ^ 1 = 2 := by norm_num
    rw [e] at b6
    exact b6
  have h6 : t6 = 1 := by omega
  rw [h6, Nat.log_one_right] at l6
  omega


theorem claim_C5_aux :
    ∀ size : Nat, size < 2 ^ 64 →
      (map_to_bin size : ℤ) = max 0 ((Nat.clog 2 size : ℤ) - 3) := by
  intro size hlt
  rcases Nat.eq_zero_or_pos size with h0 | hpos
  · subst h0
    have hz : map_to_bin 0 = 0 := by decide
    rw [hz, Nat.clog_zero_right]
    norm_num
  · have hc := map_to_bin_eq_clog size hpos hlt
    rw [hc]
    rcases le_or_lt (Nat.clog 2 size) 3 with hle | hgt
    · rw [Nat.sub_eq_zero_of_le hle]
      rw [max_eq_left (by omega)]
      simp
    · rw [Nat.cast_sub (by omega)]
      rw [max_eq_right (by omega)]
      norm_num

/-- **C5.** The size-to-bin mapping satisfies `bin(size) = max(0, clog2
size - 3)` for every `usize` size, and in particular `bin(1)=0`, `bin(8)=0`,
`bin(9)=1`, `bin(16)=1`, `bin(17)=2`, `bin(1<<32)=29`, `bin(0)=0`. -/
theorem claim_C5 :
    (∀ size : Nat, size < 2 ^ 64 →
        (map_to_bin size : ℤ) = max 0 ((Nat.clog 2 size : ℤ) - 3)) ∧
    map_to_bin 0 = 0 ∧ map_to_bin 1 = 0 ∧ map_to_bin 8 = 0 ∧ map_to_bin 9 = 1 ∧
    map_to_bin 16 = 1 ∧ map_to_bin 17 = 2 ∧ map_to_bin (1 <<< 32) = 29 :=
  ⟨claim_C5_aux, by decide, by decide, by decide, by decide, by decide, by decide, by decide⟩

/-- Witness for C5: the universal part applied at the concrete size 64. -/
theorem claim_C5_witness :
    (map_to_bin 64 : ℤ) = max 0 ((Nat.clog 2 64 : ℤ) - 3) :=
  claim_C5.1 64 (by norm_num)


/-! ## Step lemmas for symbolic evaluation of the allocator -/

theorem scan_bins_found {σ : AllocState} {c : Nat} {L : Layout} {nodes : List Nat}
    {b : Nat} {rest : List Nat} (f : Nat) (hf : f ≠ 0)
    (hn : σ.bins[c]? = some nodes)
    (ha : findAligned nodes L.align = some (b, rest)) :
    scan_bins f σ c L = some (b, c, setBin σ c rest) := by
  cases f with
  | zero => exact absurd rfl hf
  | succ g =>
    have hc : c < σ.bins.length := (List.getElem?_eq_some_iff.mp hn).1
    simp [scan_bins, hc, hn, ha]

theorem scan_bins_empty (f c fs fe : Nat) (L : Layout) :
    scan_bins f ⟨List.replicate 29 [], fs, fe⟩ c L = none := by
  induction f generalizing c with
  | zero => rfl
  | succ g ih =>
    show scan_bins (g + 1) _ c L = none
    rw [scan_bins]
    by_cases hc : c < (List.replicate 29 ([] : List Nat)).length
    · rw [if_pos hc]
      have hg : (List.replicate 29 ([] : List Nat))[c]? = some [] := by
        rw [List.getElem?_replicate]
        simp at hc
        simp [hc]
      rw [hg]
      show scan_bins g _ (c + 1) L = none
      exact ih (c + 1)
    · rw [if_neg hc]

theorem binAlloc_scan_split (σ : AllocState) (L : Layout) {b c : Nat} {σ2 σ3 : AllocState}
    (h : scan_bins 30 σ (map_to_bin L.size) L = some (b, c, σ2))
    (hne : c ≠ map_to_bin L.size)
    (hre : reinsert_block 31 σ2 (b + map_to_size (map_to_bin L.size)) (map_to_bin L.size)
        (map_to_size c - map_to_size (map_to_bin L.size)) = some σ3) :
    binAlloc σ L = .ok b σ3 := by
  simp only [binAlloc, h, hre]
  simp [hne]

theorem binAlloc_bump (σ : AllocState) (L : Layout) {b : Nat} {σ2 : AllocState}
    (hs : scan_bins 30 σ (map_to_bin L.size) L = none)
    (hg : get_block_from_free_mem σ L = some (some (b, σ2))) :
    binAlloc σ L = .ok b σ2 := by
  simp [binAlloc, hs, hg]

theorem align_up_aligned {addr align : Nat} (hpow : align &&& (align - 1) = 0)
    (h0 : align ≠ 0) (hmod : addr % align = 0) : align_up addr align = some addr := by
  simp [align_up, hpow, h0, hmod]

theorem get_block_bump (σ : AllocState) (L : Layout)
    (ha : align_up σ.free_start L.align = some σ.free_start)
    (hfit : σ.free_start + map_to_size (map_to_bin L.size) ≤ σ.free_end)
    (hfe : σ.free_end < USIZE) :
    get_block_from_free_mem σ L =
      some (some (σ.free_start,
        { σ with free_start := σ.free_start + map_to_size (map_to_bin L.size) })) := by
  have hadd : checkedAdd σ.free_start (map_to_size (map_to_bin L.size)) =
      some (σ.free_start + map_to_size (map_to_bin L.size)) := by
    simp only [checkedAdd]
    rw [if_pos (by omega)]
  simp only [get_block_from_free_mem, ha, hadd]
  rw [if_neg (by omega)]

theorem bump_alloc8 (fs fe : Nat) (h8 : fs % 8 = 0) (hle : fs + 8 ≤ fe) (hfe : fe < 2 ^ 64) :
    binAlloc ⟨List.replicate 29 [], fs, fe⟩ ⟨8, 8⟩ = .ok fs ⟨List.replicate 29 [], fs + 8, fe⟩ := by
  apply binAlloc_bump
  · exact scan_bins_empty 30 _ fs fe _
  · exact get_block_bump ⟨List.replicate 29 [], fs, fe⟩ ⟨8, 8⟩
      (align_up_aligned (by decide) (by decide) h8) hle hfe

theorem insert_block_merge {σ : AllocState} {block size : Nat} {nodes : List Nat}
    {low : Nat} {rest : List Nat} (f : Nat) (hf : f ≠ 0)
    (hn : σ.bins[map_to_bin size]? = some nodes)
    (hne : findNeighbor nodes block (map_to_size (map_to_bin size)) = some (low, rest)) :
    insert_block f σ block size =
      insert_block (f - 1) (setBin σ (map_to_bin size) rest) low (size * 2) := by
  cases f with
  | zero => exact absurd rfl hf
  | succ g => simp [insert_block, hn, hne]

theorem insert_block_push {σ : AllocState} {block size : Nat} {nodes : List Nat}
    (f : Nat) (hf : f ≠ 0)
    (hn : σ.bins[map_to_bin size]? = some nodes)
    (hne : findNeighbor nodes block (map_to_size (map_to_bin size)) = none) :
    insert_block f σ block size = some (setBin σ (map_to_bin size) (block :: nodes)) := by
  cases f with
  | zero => exact absurd rfl hf
  | succ g => simp [insert_block, hn, hne]

theorem findNeighbor_single_right {n block curr : Nat} (h1 : n + curr ≠ block)
    (h2 : block + curr = n) : findNeighbor [n] block curr = some (block, []) := by
  simp [findNeighbor, h1, h2]

theorem runOps_alloc_ok {σ σ2 : AllocState} {l : Layout} {rest : List AOp} {a : Nat}
    (h : binAlloc σ l = .ok a σ2) : runOps σ (.alloc l :: rest) = runOps σ2 rest := by
  simp [runOps, h]

theorem runOps_dealloc_ok {σ σ2 : AllocState} {p : Nat} {l : Layout} {rest : List AOp}
    (h : binDealloc σ p l = some σ2) : runOps σ (.dealloc p l :: rest) = runOps σ2 rest := by
  simp [runOps, h]

/-! ## C1: coalescing scenario S2 -/

/-- Counterexample to **C1**: from a fresh allocator over `[1024, 65536)`,
six 8-byte allocations followed by six deallocations in reverse order leave
one size-16 block at 1024 and one size-32 block at 1040 — not the claimed
single size-64 block at the heap start (class 3), which is impossible since
only 48 bytes were freed. -/
theorem claim_C1_counterexample :
    runOps (allocNew 1024 65536)
      [.alloc ⟨8, 8⟩, .alloc ⟨8, 8⟩, .alloc ⟨8, 8⟩, .alloc ⟨8, 8⟩, .alloc ⟨8, 8⟩, .alloc ⟨8, 8⟩,
       .dealloc 1064 ⟨8, 8⟩, .dealloc 1056 ⟨8, 8⟩, .dealloc 1048 ⟨8, 8⟩,
       .dealloc 1040 ⟨8, 8⟩, .dealloc 1032 ⟨8, 8⟩, .dealloc 1024 ⟨8, 8⟩] =
      some ⟨bins3 [] [1024] [1040], 1072, 65536⟩ ∧
    (bins3 [] [1024] [1040] : List (List Nat)) ≠
      (List.replicate 29 ([] : List Nat)).set 3 [1024] := by
  constructor
  · decide
  · decide

/-- **C1** (corrected).  Allocating six 8-byte blocks from a fresh allocator
over `[s, e)` (8-aligned start, enough room) and deallocating all six in
reverse order leaves a free-list state that is exactly one free block of
size 16 (class 1) at the original heap start and one free block of size 32
(class 2) at start+16, with all other free lists empty. -/
theorem claim_C1 (s e : Nat) (h8 : s % 8 = 0) (hfit : s + 48 ≤ e) (he : e < 2 ^ 64) :
    runOps (allocNew s e)
      [.alloc ⟨8, 8⟩, .alloc ⟨8, 8⟩, .alloc ⟨8, 8⟩, .alloc ⟨8, 8⟩, .alloc ⟨8, 8⟩, .alloc ⟨8, 8⟩,
       .dealloc (s + 40) ⟨8, 8⟩, .dealloc (s + 32) ⟨8, 8⟩, .dealloc (s + 24) ⟨8, 8⟩,
       .dealloc (s + 16) ⟨8, 8⟩, .dealloc (s + 8) ⟨8, 8⟩, .dealloc s ⟨8, 8⟩] =
      some ⟨bins3 [] [s] [s + 16], s + 48, e⟩ := by
  rw [show allocNew s e = ⟨List.replicate 29 [], s, e⟩ from rfl]
  rw [runOps_alloc_ok (bump_alloc8 s e h8 (by omega) he)]
  rw [runOps_alloc_ok (bump_alloc8 (s + 8) e (by omega) (by omega) he)]
  rw [show s + 8 + 8 = s + 16 from by omega]
  rw [runOps_alloc_ok (bump_alloc8 (s + 16) e (by omega) (by omega) he)]
  rw [show s + 16 + 8 = s + 24 from by omega]
  rw [runOps_alloc_ok (bump_alloc8 (s + 24) e (by omega) (by omega) he)]
  rw [show s + 24 + 8 = s + 32 from by omega]
  rw [runOps_alloc_ok (bump_alloc8 (s + 32) e (by omega) (by omega) he)]
  rw [show s + 32 + 8 = s + 40 from by omega]
  rw [runOps_alloc_ok (bump_alloc8 (s + 40) e (by omega) (by omega) he)]
  rw [show s + 40 + 8 = s + 48 from by omega]
  -- dealloc s+40 : push into class 0
  have hd1 : binDealloc ⟨List.replicate 29 [], s + 48, e⟩ (s + 40) ⟨8, 8⟩ =
      some ⟨bins3 [s + 40] [] [], s + 48, e⟩ := by
    have h : insert_block 30 ⟨List.replicate 29 [], s + 48, e⟩ (s + 40) 8 =
        some ⟨bins3 [s + 40] [] [], s + 48, e⟩ := by
      apply insert_block_push 30 (by norm_num) <;> rfl
    exact h
  rw [runOps_dealloc_ok hd1]
  -- dealloc s+32 : merge with s+40, insert size 16 into empty class 1
  have hd2 : binDealloc ⟨bins3 [s + 40] [] [], s + 48, e⟩ (s + 32) ⟨8, 8⟩ =
      some ⟨bins3 [] [s + 32] [], s + 48, e⟩ := by
    have h1 : findNeighbor [s + 40] (s + 32) 8 = some (s + 32, []) :=
      findNeighbor_single_right (by omega) (by omega)
    have h2 : insert_block 30 ⟨bins3 [s + 40] [] [], s + 48, e⟩ (s + 32) 8 =
        insert_block 29 ⟨bins3 [] [] [], s + 48, e⟩ (s + 32) 16 :=
      insert_block_merge 30 (by norm_num) rfl h1
    have h3 : insert_block 29 ⟨bins3 [] [] [], s + 48, e⟩ (s + 32) 16 =
        some ⟨bins3 [] [s + 32] [], s + 48, e⟩ := by
      apply insert_block_push 29 (by norm_num) <;> rfl
    exact h2.trans h3
  rw [runOps_dealloc_ok hd2]
  -- dealloc s+24 : push into class 0
  have hd3 : binDealloc ⟨bins3 [] [s + 32] [], s + 48, e⟩ (s + 24) ⟨8, 8⟩ =
      some ⟨bins3 [s + 24] [s + 32] [], s + 48, e⟩ := by
    have h : insert_block 30 ⟨bins3 [] [s + 32] [], s + 48, e⟩ (s + 24) 8 =
        some ⟨bins3 [s + 24] [s + 32] [], s + 48, e⟩ := by
      apply insert_block_push 30 (by norm_num) <;> rfl
    exact h
  rw [runOps_dealloc_ok hd3]
  -- dealloc s+16 : merge with s+24 (16), merge with s+32 (32), push into class 2
  have hd4 : binDealloc ⟨bins3 [s + 24] [s + 32] [], s + 48, e⟩ (s + 16) ⟨8, 8⟩ =
      some ⟨bins3 [] [] [s + 16], s + 48, e⟩ := by
    have h1 : findNeighbor [s + 24] (s + 16) 8 = some (s + 16, []) :=
      findNeighbor_single_right (by omega) (by omega)
    have h2 : insert_block 30 ⟨bins3 [s + 24] [s + 32] [], s + 48, e⟩ (s + 16) 8 =
        insert_block 29 ⟨bins3 [] [s + 32] [], s + 48, e⟩ (s + 16) 16 :=
      insert_block_merge 30 (by norm_num) rfl h1
    have h3 : findNeighbor [s + 32] (s + 16) 16 = some (s + 16, []) :=
      findNeighbor_single_right (by omega) (by omega)
    have h4 : insert_block 29 ⟨bins3 [] [s + 32] [], s + 48, e⟩ (s + 16) 16 =
        insert_block 28 ⟨bins3 [] [] [], s + 48, e⟩ (s + 16) 32 :=
      insert_block_merge 29 (by norm_num) rfl h3
    have h5 : insert_block 28 ⟨bins3 [] [] [], s + 48, e⟩ (s + 16) 32 =
        some ⟨bins3 [] [] [s + 16], s + 48, e⟩ := by
      apply insert_block_push 28 (by norm_num) <;> rfl
    exact h2.trans (h4.trans h5)
  rw [runOps_dealloc_ok hd4]
  -- dealloc s+8 : push into class 0
  have hd5 : binDealloc ⟨bins3 [] [] [s + 16], s + 48, e⟩ (s + 8) ⟨8, 8⟩ =
      some ⟨bins3 [s + 8] [] [s + 16], s + 48, e⟩ := by
    have h : insert_block 30 ⟨bins3 [] [] [s + 16], s + 48, e⟩ (s + 8) 8 =
        some ⟨bins3 [s + 8] [] [s + 16], s + 48, e⟩ := by
      apply insert_block_push 30 (by norm_num) <;> rfl
    exact h
  rw [runOps_dealloc_ok hd5]
  -- dealloc s : merge with s+8 (16), push into class 1
  have hd6 : binDealloc ⟨bins3 [s + 8] [] [s + 16], s + 48, e⟩ s ⟨8, 8⟩ =
      some ⟨bins3 [] [s] [s + 16], s + 48, e⟩ := by
    have h1 : findNeighbor [s + 8] s 8 = some (s, []) :=
      findNeighbor_single_right (by omega) (by omega)
    have h2 : insert_block 30 ⟨bins3 [s + 8] [] [s + 16], s + 48, e⟩ s 8 =
        insert_block 29 ⟨bins3 [] [] [s + 16], s + 48, e⟩ s 16 :=
      insert_block_merge 30 (by norm_num) rfl h1
    have h3 : insert_block 29 ⟨bins3 [] [] [s + 16], s + 48, e⟩ s 16 =
        some ⟨bins3 [] [s] [s + 16], s + 48, e⟩ := by
      apply insert_block_push 29 (by norm_num) <;> rfl
    exact h2.trans h3
  rw [runOps_dealloc_ok hd6]
  rfl

/-- Witness for C1 at `s = 1024`, `e = 65536`. -/
theorem claim_C1_witness :
    runOps (allocNew 1024 65536)
      [.alloc ⟨8, 8⟩, .alloc ⟨8, 8⟩, .alloc ⟨8, 8⟩, .alloc ⟨8, 8⟩, .alloc ⟨8, 8⟩, .alloc ⟨8, 8⟩,
       .dealloc (1024 + 40) ⟨8, 8⟩, .dealloc (1024 + 32) ⟨8, 8⟩, .dealloc (1024 + 24) ⟨8, 8⟩,
       .dealloc (1024 + 16) ⟨8, 8⟩, .dealloc (1024 + 8) ⟨8, 8⟩, .dealloc 1024 ⟨8, 8⟩] =
      some ⟨bins3 [] [1024] [1024 + 16], 1024 + 48, 65536⟩ :=
  claim_C1 1024 65536 (by norm_num) (by norm_num) (by norm_num)

/-! ## C9: split scenario S3 -/

/-- **C9.**  In an allocator state whose only free block is one size-64
block at `B` (class 3), an alloc request of 8 bytes with alignment 8
returns the lowest address `B` of that block, and afterwards the free
lists contain exactly one block each of sizes 8 (at `B+8`), 16 (at `B+16`)
and 32 (at `B+32`), totalling 56 bytes. -/
theorem claim_C9 (B fs fe : Nat) (hB : B % 8 = 0) :
    binAlloc ⟨[[], [], [], [B], [], [], [], [], [], [], [], [], [], [],
               [], [], [], [], [], [], [], [], [], [], [], [], [], [], []], fs, fe⟩ ⟨8, 8⟩ =
      .ok B ⟨[[B + 8], [B + 16], [B + 32], [], [], [], [], [], [], [], [], [], [], [],
              [], [], [], [], [], [], [], [], [], [], [], [], [], [], []], fs, fe⟩ := by
  have hfind : findAligned [B] (8 : Nat) = some (B, []) := by
    simp [findAligned, is_aligned, hB]
  have hscan : scan_bins 27
      ⟨[[], [], [], [B], [], [], [], [], [], [], [], [], [], [],
        [], [], [], [], [], [], [], [], [], [], [], [], [], [], []], fs, fe⟩ 3 ⟨8, 8⟩ =
      some (B, 3, ⟨[[], [], [], [], [], [], [], [], [], [], [], [], [], [],
        [], [], [], [], [], [], [], [], [], [], [], [], [], [], []], fs, fe⟩) :=
    scan_bins_found 27 (by norm_num) rfl hfind
  have hre : reinsert_block 31
      ⟨[[], [], [], [], [], [], [], [], [], [], [], [], [], [],
        [], [], [], [], [], [], [], [], [], [], [], [], [], [], []], fs, fe⟩ (B + 8) 0 56 =
      some ⟨[[B + 8], [B + 16], [B + 32], [], [], [], [], [], [], [], [], [], [], [],
        [], [], [], [], [], [], [], [], [], [], [], [], [], [], []], fs, fe⟩ := rfl
  exact binAlloc_scan_split _ _ hscan (by decide) hre

/-- Witness for C9 at `B = 64`. -/
theorem claim_C9_witness :
    binAlloc ⟨[[], [], [], [(64:Nat)], [], [], [], [], [], [], [], [], [], [],
               [], [], [], [], [], [], [], [], [], [], [], [], [], [], []], 128, 4096⟩ ⟨8, 8⟩ =
      .ok 64 ⟨[[64 + 8], [64 + 16], [64 + 32], [], [], [], [], [], [], [], [], [], [], [],
              [], [], [], [], [], [], [], [], [], [], [], [], [], [], []], 128, 4096⟩ :=
  claim_C9 64 128 4096 (by norm_num)


/-! ## C8: the null sentinel is returned only when nothing fits -/

theorem findAligned_none {align : Nat} :
    ∀ {nodes : List Nat}, findAligned nodes align = none →
      ∀ b ∈ nodes, is_aligned b align = false := by
  intro nodes
  induction nodes with
  | nil => intro _ b hb; exact absurd hb (List.not_mem_nil b)
  | cons n rest ih =>
    intro h b hb
    cases hA : is_aligned n align with
    | true => simp [findAligned, hA] at h
    | false =>
      simp only [findAligned, hA] at h
      cases hr : findAligned rest align with
      | some p => rw [hr] at h; simp at h
      | none =>
        rcases List.mem_cons.mp hb with rfl | hmem
        · exact hA
        · exact ih hr b hmem

theorem scan_bins_none_sound {σ : AllocState} {L : Layout} :
    ∀ (f c : Nat), scan_bins f σ c L = none → σ.bins.length ≤ c + f →
      ∀ j, c ≤ j → ∀ nodes, σ.bins[j]? = some nodes →
        findAligned nodes L.align = none := by
  intro f
  induction f with
  | zero =>
    intro c _ hf j hj nodes hn
    have := (List.getElem?_eq_some_iff.mp hn).1
    omega
  | succ g ih =>
    intro c h hf j hj nodes hn
    have hjl : j < σ.bins.length := (List.getElem?_eq_some_iff.mp hn).1
    have hcl : c < σ.bins.length := by omega
    have hnc : σ.bins[c]? = some (σ.bins.get ⟨c, hcl⟩) := List.getElem?_eq_getElem hcl
    simp only [scan_bins, if_pos hcl, hnc] at h
    cases hfa : findAligned (σ.bins.get ⟨c, hcl⟩) L.align with
    | some p => rw [hfa] at h; simp at h
    | none =>
      rw [hfa] at h
      rcases Nat.eq_or_lt_of_le hj with rfl | hlt
      · rw [hn] at hnc
        injection hnc with he
        rw [he]
        exact hfa
      · exact ih (c + 1) h (by omega) j (by omega) nodes hn

/-- **C8.**  `alloc(layout)` returns the null sentinel only when no free
list of any class `≥ bin(layout.size)` contains a block aligned to
`layout.align`, and the bump frontier aligned up to `layout.align` cannot
supply a block of the class size without crossing `end` (where an addition
overflowing `usize` also counts as crossing); moreover the allocator state
(free lists and `free_start`) is unchanged. -/
theorem claim_C8 (σ σ2 : AllocState) (L : Layout) (hlen : σ.bins.length = 29)
    (h : binAlloc σ L = .null σ2) :
    σ2 = σ ∧
    (∀ j, map_to_bin L.size ≤ j → ∀ nodes, σ.bins[j]? = some nodes →
      ∀ b ∈ nodes, is_aligned b L.align = false) ∧
    (∀ a, align_up σ.free_start L.align = some a →
      σ.free_end < a + map_to_size (map_to_bin L.size) ∨
        USIZE ≤ a + map_to_size (map_to_bin L.size)) := by
  simp only [binAlloc] at h
  cases hs : scan_bins 30 σ (map_to_bin L.size) L with
  | some p =>
    rw [hs] at h
    rcases p with ⟨b, c, σ3⟩
    by_cases hc : c = map_to_bin L.size
    · simp [hc] at h
    · simp only [hc, if_false] at h
      cases hre : reinsert_block 31 σ3 (b + map_to_size (map_to_bin L.size))
          (map_to_bin L.size) (map_to_size c - map_to_size (map_to_bin L.size)) with
      | none => simp [hre, hc] at h
      | some σ4 => simp [hre, hc] at h
  | none =>
    rw [hs] at h
    cases hg : get_block_from_free_mem σ L with
    | none => rw [hg] at h; simp at h
    | some o =>
      cases o with
      | some p => rw [hg] at h; simp at h
      | none =>
        rw [hg] at h
        simp only [BinRes.null.injEq] at h
        refine ⟨h.symm, ?_, ?_⟩
        · intro j hj nodes hn b hb
          exact findAligned_none
            (scan_bins_none_sound 30 (map_to_bin L.size) hs (by omega) j hj nodes hn) b hb
        · intro a ha
          simp only [get_block_from_free_mem, ha] at hg
          cases hca : checkedAdd a (map_to_size (map_to_bin L.size)) with
          | none =>
            right
            simp only [checkedAdd] at hca
            by_cases hcc : a + map_to_size (map_to_bin L.size) < USIZE
            · rw [if_pos hcc] at hca; exact absurd hca (by simp)
            · omega
          | some res =>
            left
            rw [hca] at hg
            have hres : res = a + map_to_size (map_to_bin L.size) := by
              simp only [checkedAdd] at hca
              by_cases hcc : a + map_to_size (map_to_bin L.size) < USIZE
              · rw [if_pos hcc] at hca; injection hca with he; omega
              · rw [if_neg hcc] at hca; exact absurd hca (by simp)
            by_cases hgt : res > σ.free_end
            · omega
            · simp [hgt] at hg

/-- Witness for C8: a fresh zero-sized heap returns null for an 8-byte
request, with the state unchanged. -/
theorem claim_C8_witness :
    allocNew 0 0 = allocNew 0 0 ∧
    (∀ j, map_to_bin (8:Nat) ≤ j → ∀ nodes, (allocNew 0 0).bins[j]? = some nodes →
      ∀ b ∈ nodes, is_aligned b 8 = false) ∧
    (∀ a, align_up (allocNew 0 0).free_start 8 = some a →
      (allocNew 0 0).free_end < a + map_to_size (map_to_bin 8) ∨
        USIZE ≤ a + map_to_size (map_to_bin 8)) :=
  claim_C8 (allocNew 0 0) (allocNew 0 0) ⟨8, 8⟩ (by decide) (by decide)


/-! ## C3: bounds and alignment of successful allocations

The reachability relation `Reach`, its invariant `GoodState`, and the
supporting lemmas about `insert_block`, `reinsert_block` and the scan loop.
-/

theorem map_to_size_eq (k : Nat) : map_to_size k = 2 ^ (k + 3) := by
  simp [map_to_size, Nat.shiftLeft_eq]

theorem map_to_bin_pow (m : Nat) (h : m + 3 < 64) : map_to_bin (2 ^ (m + 3)) = m := by
  rw [map_to_bin_eq_clog (2 ^ (m + 3)) (Nat.pos_pow_of_pos _ (by norm_num))
    (Nat.pow_lt_pow_right (by norm_num) h)]
  rw [Nat.clog_pow 2 _ one_lt_two]
  omega

theorem le_map_to_size {s : Nat} (h1 : 0 < s) (h2 : s < 2 ^ 64) :
    s ≤ map_to_size (map_to_bin s) := by
  rw [map_to_size_eq, map_to_bin_eq_clog s h1 h2]
  calc s ≤ 2 ^ Nat.clog 2 s := Nat.le_pow_clog one_lt_two s
  _ ≤ 2 ^ (Nat.clog 2 s - 3 + 3) := Nat.pow_le_pow_right (by norm_num) (by omega)

theorem findAligned_some {align : Nat} :
    ∀ {nodes rest : List Nat} {b : Nat}, findAligned nodes align = some (b, rest) →
      b ∈ nodes ∧ is_aligned b align = true ∧ ∀ x ∈ rest, x ∈ nodes := by
  intro nodes
  induction nodes with
  | nil => intro rest b h; exact absurd h (by simp [findAligned])
  | cons n tail ih =>
    intro rest b h
    cases hA : is_aligned n align with
    | true =>
      simp only [findAligned, hA, if_true] at h
      injection h with he
      injection he with he1 he2
      subst he1
      subst he2
      refine ⟨List.mem_cons_self n tail, hA, ?_⟩
      intro x hx
      exact List.mem_cons_of_mem n hx
    | false =>
      simp only [findAligned, hA, Bool.false_eq_true, if_false] at h
      cases hr : findAligned tail align with
      | some p =>
        rcases p with ⟨b2, r2⟩
        simp only [hr, Option.some.injEq, Prod.mk.injEq] at h
        obtain ⟨hb2, hrest⟩ := h
        subst hb2
        obtain ⟨hm, ha, hsub⟩ := ih hr
        refine ⟨List.mem_cons_of_mem n hm, ha, ?_⟩
        intro x hx
        rw [← hrest] at hx
        rcases List.mem_cons.mp hx with rfl | hx2
        · exact List.mem_cons_self x tail
        · exact List.mem_cons_of_mem n (hsub x hx2)
      | none =>
        simp only [hr] at h
        exact Option.noConfusion h

theorem findNeighbor_some {b c : Nat} :
    ∀ {nodes rest : List Nat} {low : Nat}, findNeighbor nodes b c = some (low, rest) →
      (∃ n ∈ nodes, (low = n ∧ n + c = b) ∨ (low = b ∧ b + c = n)) ∧
        ∀ x ∈ rest, x ∈ nodes := by
  intro nodes
  induction nodes with
  | nil => intro rest low h; exact absurd h (by simp [findNeighbor])
  | cons n tail ih =>
    intro rest low h
    by_cases h1 : n + c = b
    · simp only [findNeighbor, if_pos h1] at h
      injection h with he
      injection he with he1 he2
      subst he1
      subst he2
      exact ⟨⟨n, List.mem_cons_self n tail, Or.inl ⟨rfl, h1⟩⟩,
        fun x hx => List.mem_cons_of_mem n hx⟩
    · by_cases h2 : b + c = n
      · simp only [findNeighbor, if_neg h1, if_pos h2] at h
        injection h with he
        injection he with he1 he2
        subst he1
        subst he2
        exact ⟨⟨n, List.mem_cons_self n tail, Or.inr ⟨rfl, h2⟩⟩,
          fun x hx => List.mem_cons_of_mem n hx⟩
      · simp only [findNeighbor, if_neg h1, if_neg h2] at h
        cases hr : findNeighbor tail b c with
        | some p =>
          rcases p with ⟨low2, r2⟩
          simp only [hr, Option.some.injEq, Prod.mk.injEq] at h
          obtain ⟨hl, hrest⟩ := h
          subst hl
          obtain ⟨⟨n2, hn2, hor⟩, hsub⟩ := ih hr
          refine ⟨⟨n2, List.mem_cons_of_mem n hn2, hor⟩, ?_⟩
          intro x hx
          rw [← hrest] at hx
          rcases List.mem_cons.mp hx with rfl | hx2
          · exact List.mem_cons_self x tail
          · exact List.mem_cons_of_mem n (hsub x hx2)
        | none =>
          simp only [hr] at h
          exact Option.noConfusion h

theorem scan_bins_some {σ : AllocState} {L : Layout} {b j : Nat} {σ2 : AllocState} :
    ∀ (f c : Nat), scan_bins f σ c L = some (b, j, σ2) →
      ∃ nodes rest, σ.bins[j]? = some nodes ∧
        findAligned nodes L.align = some (b, rest) ∧ σ2 = setBin σ j rest ∧ c ≤ j := by
  intro f
  induction f with
  | zero => intro c h; exact absurd h (by simp [scan_bins])
  | succ g ih =>
    intro c h
    by_cases hc : c < σ.bins.length
    · have hnc : σ.bins[c]? = some (σ.bins.get ⟨c, hc⟩) := List.getElem?_eq_getElem hc
      simp only [scan_bins, if_pos hc, hnc] at h
      cases hfa : findAligned (σ.bins.get ⟨c, hc⟩) L.align with
      | some p =>
        rcases p with ⟨b2, r2⟩
        simp only [hfa, Option.some.injEq, Prod.mk.injEq] at h
        obtain ⟨hb, hj, hσ⟩ := h
        subst hb
        subst hj
        exact ⟨_, r2, hnc, hfa, hσ.symm, Nat.le_refl c⟩
      | none =>
        simp only [hfa] at h
        obtain ⟨nodes, rest, h1, h2, h3, h4⟩ := ih (c + 1) h
        exact ⟨nodes, rest, h1, h2, h3, by omega⟩
    · simp only [scan_bins, if_neg hc] at h
      exact Option.noConfusion h


theorem binsInv_set {bins : List (List Nat)} {fs k : Nat} {l : List Nat}
    (h : BinsInv bins fs) (hl : ∀ x ∈ l, x + 2 ^ (k + 3) ≤ fs) :
    BinsInv (bins.set k l) fs := by
  intro j nds hj x hx
  by_cases hjk : j = k
  · subst hjk
    have hjlen : j < bins.length := by
      have := (List.getElem?_eq_some_iff.mp hj).1
      rw [List.length_set] at this
      exact this
    rw [List.getElem?_set_self hjlen] at hj
    injection hj with he
    subst he
    exact hl x hx
  · rw [List.getElem?_set_ne (Ne.symm hjk)] at hj
    exact h j nds hj x hx

theorem insert_block_inv :
    ∀ (f : Nat) (σ : AllocState) (b m : Nat) (σ2 : AllocState),
      insert_block f σ b (2 ^ (m + 3)) = some σ2 →
      σ.bins.length = 29 →
      BinsInv σ.bins σ.free_start →
      m + 3 < 64 →
      b + 2 ^ (m + 3) ≤ σ.free_start →
      σ2.free_start = σ.free_start ∧ σ2.free_end = σ.free_end ∧
        σ2.bins.length = 29 ∧ BinsInv σ2.bins σ2.free_start := by
  intro f
  induction f with
  | zero =>
    intro σ b m σ2 h
    exact absurd h (by simp [insert_block])
  | succ g ih =>
    intro σ b m σ2 h hlen hinv hm hb
    have hmb : map_to_bin (2 ^ (m + 3)) = m := map_to_bin_pow m hm
    simp only [insert_block, hmb] at h
    cases hn : σ.bins[m]? with
    | none =>
      simp only [hn] at h
      exact Option.noConfusion h
    | some nodes =>
      have hm29 : m < 29 := by
        have := (List.getElem?_eq_some_iff.mp hn).1
        omega
      cases hf : findNeighbor nodes b (map_to_size m) with
      | none =>
        simp only [hn, hf] at h
        injection h with he
        subst he
        refine ⟨rfl, rfl, by simp [setBin, hlen], ?_⟩
        show BinsInv (σ.bins.set m (b :: nodes)) σ.free_start
        apply binsInv_set hinv
        intro x hx
        rcases List.mem_cons.mp hx with rfl | hx2
        · exact hb
        · exact hinv m nodes hn x hx2
      | some p =>
        rcases p with ⟨low, rest⟩
        simp only [hn, hf] at h
        obtain ⟨⟨nn, hnn, hor⟩, hsub⟩ := findNeighbor_some hf
        have hnn2 : nn + 2 ^ (m + 3) ≤ σ.free_start := hinv m nodes hn nn hnn
        have hlow : low + 2 ^ (m + 1 + 3) ≤ σ.free_start := by
          rw [map_to_size_eq] at hor
          have h2 : (2:Nat) ^ (m + 1 + 3) = 2 ^ (m + 3) + 2 ^ (m + 3) := by ring
          rcases hor with ⟨he1, he2⟩ | ⟨he1, he2⟩ <;> subst he1 <;> omega
        have hm2 : m + 1 + 3 < 64 := by omega
        have hh : insert_block g (setBin σ m rest) low (2 ^ (m + 1 + 3)) = some σ2 := by
          rw [show (2:Nat) ^ (m + 1 + 3) = 2 ^ (m + 3) * 2 from by ring]
          exact h
        have hlen2 : (setBin σ m rest).bins.length = 29 := by simp [setBin, hlen]
        have hinv2 : BinsInv (setBin σ m rest).bins (setBin σ m rest).free_start := by
          show BinsInv (σ.bins.set m rest) σ.free_start
          apply binsInv_set hinv
          intro x hx
          exact hinv m nodes hn x (hsub x hx)
        have hrec := ih (setBin σ m rest) low (m + 1) σ2 hh hlen2 hinv2 hm2 hlow
        exact hrec


theorem reinsert_block_inv :
    ∀ (d f : Nat) (σ : AllocState) (b k : Nat) (σ2 : AllocState),
      reinsert_block f σ b k (2 ^ (k + d + 3) - 2 ^ (k + 3)) = some σ2 →
      σ.bins.length = 29 → BinsInv σ.bins σ.free_start →
      k + d + 3 < 64 →
      b + (2 ^ (k + d + 3) - 2 ^ (k + 3)) ≤ σ.free_start →
      σ2.free_start = σ.free_start ∧ σ2.free_end = σ.free_end ∧
        σ2.bins.length = 29 ∧ BinsInv σ2.bins σ2.free_start := by
  intro d
  induction d with
  | zero =>
    intro f σ b k σ2 h hlen hinv _ _
    cases f with
    | zero => exact absurd h (by simp [reinsert_block])
    | succ g =>
      have hz : 2 ^ (k + 0 + 3) - 2 ^ (k + 3) = 0 := by
        have : k + 0 + 3 = k + 3 := by omega
        rw [this]
        omega
      rw [hz] at h
      simp only [reinsert_block, if_pos rfl] at h
      injection h with he
      subst he
      exact ⟨rfl, rfl, hlen, hinv⟩
  | succ d2 ih =>
    intro f σ b k σ2 h hlen hinv hk hb
    cases f with
    | zero => exact absurd h (by simp [reinsert_block])
    | succ g =>
      have hpow1 : (2:Nat) ^ ((k + 1) + 3) = 2 ^ (k + 3) + 2 ^ (k + 3) := by ring
      have hpow2 : (2:Nat) ^ ((k + 1) + 3) ≤ 2 ^ (k + (d2 + 1) + 3) :=
        Nat.pow_le_pow_right (by norm_num) (by omega)
      have hpow3 : (2:Nat) ^ (k + 3) < 2 ^ (k + (d2 + 1) + 3) :=
        Nat.pow_lt_pow_right one_lt_two (by omega)
      have hsz : 2 ^ (k + (d2 + 1) + 3) - 2 ^ (k + 3) ≠ 0 := by omega
      simp only [reinsert_block, hsz, if_false] at h
      cases hi : insert_block 30 σ b (map_to_size k) with
      | none =>
        simp only [hi] at h
        exact Option.noConfusion h
      | some σ3 =>
        simp only [hi] at h
        have hb1 : b + 2 ^ (k + 3) ≤ σ.free_start := by omega
        have hins := insert_block_inv 30 σ b k σ3
          (by rw [← map_to_size_eq]; exact hi) hlen hinv (by omega) hb1
        obtain ⟨e1, e2, e3, e4⟩ := hins
        have hprev : k + (d2 + 1) + 3 = (k + 1) + d2 + 3 := by omega
        have harith : 2 ^ (k + (d2 + 1) + 3) - 2 ^ (k + 3) - map_to_size k
            = 2 ^ ((k + 1) + d2 + 3) - 2 ^ ((k + 1) + 3) := by
          rw [map_to_size_eq, ← hprev]
          omega
        rw [harith] at h
        have hbound : (b + map_to_size k) + (2 ^ ((k + 1) + d2 + 3) - 2 ^ ((k + 1) + 3))
            ≤ σ3.free_start := by
          rw [e1, map_to_size_eq, ← hprev]
          omega
        have hrec := ih g σ3 (b + map_to_size k) (k + 1) σ2 h e3
          e4 (by omega) hbound
        exact ⟨hrec.1.trans e1, hrec.2.1.trans e2, hrec.2.2.1, hrec.2.2.2⟩


theorem align_up_some {a al b : Nat} (h : align_up a al = some b) :
    a ≤ b ∧ b % al = 0 := by
  simp only [align_up] at h
  by_cases h1 : al &&& (al - 1) ≠ 0
  · rw [if_pos h1] at h
    exact Option.noConfusion h
  · rw [if_neg h1] at h
    by_cases h2 : al = 0
    · rw [if_pos h2] at h
      exact Option.noConfusion h
    · rw [if_neg h2] at h
      have hal : 0 < al := Nat.pos_of_ne_zero h2
      by_cases h3 : a % al = 0
      · rw [if_pos h3] at h
        injection h with he
        subst he
        exact ⟨Nat.le_refl a, h3⟩
      · rw [if_neg h3] at h
        simp only [checkedAdd] at h
        by_cases h4 : a + (al - a % al) < USIZE
        · rw [if_pos h4] at h
          injection h with he
          subst he
          constructor
          · omega
          · have hmlt : a % al < al := Nat.mod_lt a hal
            have hdm := Nat.div_add_mod a al
            have heq : a + (al - a % al) = al * (a / al + 1) := by
              rw [Nat.mul_add, Nat.mul_one]
              omega
            rw [heq]
            exact Nat.mul_mod_right al _
        · rw [if_neg h4] at h
          exact Option.noConfusion h

theorem binsInv_mono {bins : List (List Nat)} {fs fs2 : Nat}
    (h : BinsInv bins fs) (hle : fs ≤ fs2) : BinsInv bins fs2 := by
  intro j nodes hj x hx
  have := h j nodes hj x hx
  omega

theorem binAlloc_null_eq {σ σ2 : AllocState} {L : Layout}
    (h : binAlloc σ L = .null σ2) : σ2 = σ := by
  simp only [binAlloc] at h
  cases hs : scan_bins 30 σ (map_to_bin L.size) L with
  | some p =>
    rcases p with ⟨b, c, σ3⟩
    rw [hs] at h
    by_cases hc : c = map_to_bin L.size
    · simp [hc] at h
    · simp only [hc, if_false] at h
      cases hre : reinsert_block 31 σ3 (b + map_to_size (map_to_bin L.size))
          (map_to_bin L.size) (map_to_size c - map_to_size (map_to_bin L.size)) with
      | none => simp [hre, hc] at h
      | some σ4 => simp [hre, hc] at h
  | none =>
    rw [hs] at h
    cases hg : get_block_from_free_mem σ L with
    | none => rw [hg] at h; simp at h
    | some o =>
      cases o with
      | some p => rw [hg] at h; simp at h
      | none =>
        rw [hg] at h
        simp only [BinRes.null.injEq] at h
        exact h.symm

theorem map_to_bin_le_60 {s : Nat} (h1 : 0 < s) (h2 : s < 2 ^ 63) :
    map_to_bin s ≤ 60 := by
  rw [map_to_bin_eq_clog s h1 (by omega)]
  have : Nat.clog 2 s ≤ 63 := by
    calc Nat.clog 2 s ≤ Nat.clog 2 (2 ^ 63) :=
      Nat.clog_mono_right 2 (by omega)
    _ = 63 := Nat.clog_pow 2 63 one_lt_two
  omega

theorem reach_good {σ : AllocState} {A : List (Nat × Layout)} (h : Reach σ A) :
    GoodState σ A := by
  induction h with
  | fresh s e hse he =>
    refine ⟨by simp [allocNew], hse, he, ?_, by simp⟩
    intro j nodes hj x hx
    simp only [allocNew] at hj
    rw [List.getElem?_replicate] at hj
    by_cases hj2 : j < 29
    · rw [if_pos hj2] at hj
      injection hj with he2
      subst he2
      exact absurd hx (List.not_mem_nil x)
    · rw [if_neg hj2] at hj
      exact Option.noConfusion hj
  | @alloc σ σ2 A l a hR hpos hlt hal hok ih =>
    obtain ⟨hlen, hse, hfe, hbinv, hA⟩ := ih
    have hsz64 : l.size < 2 ^ 64 := by
      have : (2:Nat) ^ 63 < 2 ^ 64 := by norm_num
      omega
    simp only [binAlloc] at hok
    cases hs : scan_bins 30 σ (map_to_bin l.size) l with
    | some p =>
      rcases p with ⟨b, c, σmid⟩
      rw [hs] at hok
      obtain ⟨nodes, rest, hnc, hfa, hmid, hck⟩ := scan_bins_some 30 (map_to_bin l.size) hs
      subst hmid
      have hc29 : c < 29 := by
        have := (List.getElem?_eq_some_iff.mp hnc).1
        omega
      obtain ⟨hbmem, hbal, hrsub⟩ := findAligned_some hfa
      have hbfs : b + 2 ^ (c + 3) ≤ σ.free_start := hbinv c nodes hnc b hbmem
      have hmidinv : BinsInv (setBin σ c rest).bins (setBin σ c rest).free_start := by
        show BinsInv (σ.bins.set c rest) σ.free_start
        apply binsInv_set hbinv
        intro x hx
        exact hbinv c nodes hnc x (hrsub x hx)
      have hmidlen : (setBin σ c rest).bins.length = 29 := by simp [setBin, hlen]
      by_cases hc : c = map_to_bin l.size
      · simp only [hc, reduceIte, BinRes.ok.injEq] at hok
        obtain ⟨he1, he2⟩ := hok
        subst he1
        rw [← he2, ← hc]
        refine ⟨hmidlen, hse, hfe, hmidinv, ?_⟩
        intro p hp
        rcases List.mem_cons.mp hp with rfl | hp2
        · refine ⟨?_, hpos, hlt⟩
          show b + map_to_size (map_to_bin l.size) ≤ σ.free_start
          rw [← hc, map_to_size_eq]
          exact hbfs
        · exact hA p hp2
      · simp only [if_neg hc] at hok
        cases hre : reinsert_block 31 (setBin σ c rest) (b + map_to_size (map_to_bin l.size))
            (map_to_bin l.size) (map_to_size c - map_to_size (map_to_bin l.size)) with
        | none =>
          simp only [hre] at hok
          exact BinRes.noConfusion hok
        | some σ3 =>
          simp only [hre, BinRes.ok.injEq] at hok
          obtain ⟨he1, he2⟩ := hok
          subst he1
          rw [← he2]
          have hklt : map_to_bin l.size < c := by omega
          have hd : c = map_to_bin l.size + (c - map_to_bin l.size) := by omega
          have hre2 : reinsert_block 31 (setBin σ c rest)
              (b + map_to_size (map_to_bin l.size)) (map_to_bin l.size)
              (2 ^ (map_to_bin l.size + (c - map_to_bin l.size) + 3)
                - 2 ^ (map_to_bin l.size + 3)) = some σ3 := by
            rw [← hd, ← map_to_size_eq, ← map_to_size_eq]
            exact hre
          have hpowle : (2:Nat) ^ (map_to_bin l.size + 3) ≤ 2 ^ (c + 3) :=
            Nat.pow_le_pow_right (by norm_num) (by omega)
          have hbound : (b + map_to_size (map_to_bin l.size)) +
              (2 ^ (map_to_bin l.size + (c - map_to_bin l.size) + 3)
                - 2 ^ (map_to_bin l.size + 3)) ≤ (setBin σ c rest).free_start := by
            show _ ≤ σ.free_start
            rw [map_to_size_eq, ← hd]
            omega
          have hrec := reinsert_block_inv (c - map_to_bin l.size) 31 (setBin σ c rest)
            (b + map_to_size (map_to_bin l.size)) (map_to_bin l.size) σ3
            hre2 hmidlen hmidinv (by omega) hbound
          obtain ⟨f1, f2, f3, f4⟩ := hrec
          have hfs3 : σ3.free_start = σ.free_start := f1
          have hfe3 : σ3.free_end = σ.free_end := f2
          refine ⟨f3, by rw [hfs3, hfe3]; exact hse, by rw [hfe3]; exact hfe, f4, ?_⟩
          intro p hp
          rcases List.mem_cons.mp hp with rfl | hp2
          · refine ⟨?_, hpos, hlt⟩
            show b + map_to_size (map_to_bin l.size) ≤ σ3.free_start
            rw [hfs3, map_to_size_eq]
            omega
          · have := hA p hp2
            rw [hfs3]
            exact this
    | none =>
      rw [hs] at hok
      cases hg : get_block_from_free_mem σ l with
      | none =>
        simp only [hg] at hok
        exact BinRes.noConfusion hok
      | some o =>
        cases o with
        | none =>
          simp only [hg] at hok
          exact BinRes.noConfusion hok
        | some p =>
          rcases p with ⟨b, σgot⟩
          simp only [hg, BinRes.ok.injEq] at hok
          obtain ⟨he1, he2⟩ := hok
          subst he1
          rw [← he2]
          simp only [get_block_from_free_mem] at hg
          cases ha : align_up σ.free_start l.align with
          | none =>
            simp only [ha] at hg
            exact Option.noConfusion hg
          | some bstart =>
            simp only [ha] at hg
            obtain ⟨hge, hmod⟩ := align_up_some ha
            cases hca : checkedAdd bstart (map_to_size (map_to_bin l.size)) with
            | none =>
              simp only [hca] at hg
              exact Option.noConfusion (Option.some.inj hg)
            | some res =>
              simp only [hca] at hg
              have hres : res = bstart + map_to_size (map_to_bin l.size) := by
                simp only [checkedAdd] at hca
                by_cases hcc : bstart + map_to_size (map_to_bin l.size) < USIZE
                · rw [if_pos hcc] at hca
                  injection hca with hcx
                  omega
                · rw [if_neg hcc] at hca
                  exact Option.noConfusion hca
              by_cases hgt : res > σ.free_end
              · rw [if_pos hgt] at hg
                simp at hg
              · rw [if_neg hgt] at hg
                simp only [Option.some.injEq, Prod.mk.injEq] at hg
                obtain ⟨hb, hσ⟩ := hg
                subst hb
                rw [← hσ]
                refine ⟨by simp [hlen], by simp; omega, by simp [USIZE] at hfe ⊢; omega, ?_, ?_⟩
                · show BinsInv σ.bins res
                  exact binsInv_mono hbinv (by omega)
                · intro p hp
                  rcases List.mem_cons.mp hp with rfl | hp2
                  · refine ⟨?_, hpos, hlt⟩
                    show bstart + map_to_size (map_to_bin l.size) ≤ res
                    omega
                  · have := hA p hp2
                    refine ⟨?_, this.2.1, this.2.2⟩
                    show p.1 + map_to_size (map_to_bin p.2.size) ≤ res
                    have h1 := this.1
                    omega
  | @allocNull σ σ2 A l hR hpos hlt hal hnull ih =>
    rw [binAlloc_null_eq hnull]
    exact ih
  | @dealloc σ σ2 A a l hR hmem hde ih =>
    obtain ⟨hlen, hse, hfe, hbinv, hA⟩ := ih
    obtain ⟨hafs, hszpos, hszlt⟩ := hA (a, l) hmem
    have hm60 : map_to_bin l.size ≤ 60 := map_to_bin_le_60 hszpos hszlt
    have hde2 : insert_block 30 σ a (2 ^ (map_to_bin l.size + 3)) = some σ2 := by
      rw [← map_to_size_eq]
      exact hde
    have hrec := insert_block_inv 30 σ a (map_to_bin l.size) σ2 hde2 hlen hbinv
      (by omega) (by rw [← map_to_size_eq]; exact hafs)
    obtain ⟨f1, f2, f3, f4⟩ := hrec
    refine ⟨f3, by rw [f1, f2]; exact hse, by rw [f2]; exact hfe, f4, ?_⟩
    intro p hp
    have := hA p (List.mem_of_mem_erase hp)
    rw [f1]
    exact this


theorem binAlloc_ok_shape {σ : AllocState} {L : Layout} {a : Nat} {σ2 : AllocState}
    (hok : binAlloc σ L = .ok a σ2) :
    (∃ c nodes, σ.bins[c]? = some nodes ∧ a ∈ nodes ∧ is_aligned a L.align = true ∧
      map_to_bin L.size ≤ c) ∨
    (align_up σ.free_start L.align = some a ∧
      a + map_to_size (map_to_bin L.size) ≤ σ.free_end) := by
  simp only [binAlloc] at hok
  cases hs : scan_bins 30 σ (map_to_bin L.size) L with
  | some p =>
    rcases p with ⟨b, c, σmid⟩
    rw [hs] at hok
    obtain ⟨nodes, rest, hnc, hfa, hmid, hck⟩ := scan_bins_some 30 (map_to_bin L.size) hs
    obtain ⟨hbmem, hbal, _⟩ := findAligned_some hfa
    have hab : a = b := by
      by_cases hc : c = map_to_bin L.size
      · simp only [hc, reduceIte, BinRes.ok.injEq] at hok
        exact hok.1.symm
      · simp only [if_neg hc] at hok
        cases hre : reinsert_block 31 σmid (b + map_to_size (map_to_bin L.size))
            (map_to_bin L.size) (map_to_size c - map_to_size (map_to_bin L.size)) with
        | none =>
          simp only [hre] at hok
          exact BinRes.noConfusion hok
        | some σ3 =>
          simp only [hre, BinRes.ok.injEq] at hok
          exact hok.1.symm
    subst hab
    exact Or.inl ⟨c, nodes, hnc, hbmem, hbal, hck⟩
  | none =>
    rw [hs] at hok
    cases hg : get_block_from_free_mem σ L with
    | none =>
      simp only [hg] at hok
      exact BinRes.noConfusion hok
    | some o =>
      cases o with
      | none =>
        simp only [hg] at hok
        exact BinRes.noConfusion hok
      | some p =>
        rcases p with ⟨b, σgot⟩
        simp only [hg, BinRes.ok.injEq] at hok
        obtain ⟨he1, he2⟩ := hok
        subst he1
        simp only [get_block_from_free_mem] at hg
        cases ha : align_up σ.free_start L.align with
        | none =>
          simp only [ha] at hg
          exact Option.noConfusion hg
        | some bstart =>
          simp only [ha] at hg
          cases hca : checkedAdd bstart (map_to_size (map_to_bin L.size)) with
          | none =>
            simp only [hca] at hg
            exact Option.noConfusion (Option.some.inj hg)
          | some res =>
            simp only [hca] at hg
            have hres : res = bstart + map_to_size (map_to_bin L.size) := by
              simp only [checkedAdd] at hca
              by_cases hcc : bstart + map_to_size (map_to_bin L.size) < USIZE
              · rw [if_pos hcc] at hca
                injection hca with hcx
                omega
              · rw [if_neg hcc] at hca
                exact Option.noConfusion hca
            by_cases hgt : res > σ.free_end
            · rw [if_pos hgt] at hg
              simp at hg
            · rw [if_neg hgt] at hg
              simp only [Option.some.injEq, Prod.mk.injEq] at hg
              obtain ⟨hb, _⟩ := hg
              subst hb
              exact Or.inr ⟨rfl, by omega⟩

/-- Counterexample to **C3**: a state reachable from a fresh allocator over
`[2^31, 2^34)` by precondition-respecting calls in which a subsequent
`alloc` request (2^30 bytes, 2^32 alignment) neither returns null nor an
address: it panics (`bins[29]` out of bounds) because splitting the
class-28 block at `2^32` reinserts a 2^30-byte chunk that coalesces with
the free class-27 and class-28 neighbours into a 2^32-byte block, whose
bin index 29 is out of range. -/
theorem claim_C3_counterexample :
    Reach ⟨binsOnly [(27, [6442450944]), (28, [7516192768, 4294967296])],
        9663676416, 17179869184⟩
      [(2147483648, ⟨2147483648, 2147483648⟩)] ∧
    0 < (1073741824 : Nat) ∧ (1073741824 : Nat) < 2 ^ 63 ∧ (4294967296 : Nat) = 2 ^ 32 ∧
    binAlloc ⟨binsOnly [(27, [6442450944]), (28, [7516192768, 4294967296])],
        9663676416, 17179869184⟩ ⟨1073741824, 4294967296⟩ = BinRes.fatal := by
  have h0 : Reach (allocNew 2147483648 17179869184) [] :=
    Reach.fresh 2147483648 17179869184 (by norm_num) (by norm_num [USIZE])
  have e1 : binAlloc (allocNew 2147483648 17179869184) ⟨2147483648, 2147483648⟩ =
      .ok 2147483648 ⟨List.replicate 29 [], 4294967296, 17179869184⟩ := by decide
  have h1 := Reach.alloc h0 (by norm_num) (by norm_num) ⟨31, by norm_num⟩ e1
  have e2 : binAlloc ⟨List.replicate 29 [], 4294967296, 17179869184⟩ ⟨2147483648, 2147483648⟩ =
      .ok 4294967296 ⟨List.replicate 29 [], 6442450944, 17179869184⟩ := by decide
  have h2 := Reach.alloc h1 (by norm_num) (by norm_num) ⟨31, by norm_num⟩ e2
  have e3 : binAlloc ⟨List.replicate 29 [], 6442450944, 17179869184⟩ ⟨1073741824, 8⟩ =
      .ok 6442450944 ⟨List.replicate 29 [], 7516192768, 17179869184⟩ := by decide
  have h3 := Reach.alloc h2 (by norm_num) (by norm_num) ⟨3, by norm_num⟩ e3
  have e4 : binAlloc ⟨List.replicate 29 [], 7516192768, 17179869184⟩ ⟨2147483648, 8⟩ =
      .ok 7516192768 ⟨List.replicate 29 [], 9663676416, 17179869184⟩ := by decide
  have h4 := Reach.alloc h3 (by norm_num) (by norm_num) ⟨3, by norm_num⟩ e4
  have e5 : binDealloc ⟨List.replicate 29 [], 9663676416, 17179869184⟩ 4294967296
      ⟨2147483648, 2147483648⟩ =
      some ⟨binsOnly [(28, [4294967296])], 9663676416, 17179869184⟩ := by decide
  have h5 : Reach ⟨binsOnly [(28, [4294967296])], 9663676416, 17179869184⟩
      [(7516192768, ⟨2147483648, 8⟩), (6442450944, ⟨1073741824, 8⟩),
       (2147483648, ⟨2147483648, 2147483648⟩)] :=
    Reach.dealloc h4 (by decide) e5
  have e6 : binDealloc ⟨binsOnly [(28, [4294967296])], 9663676416, 17179869184⟩ 6442450944
      ⟨1073741824, 8⟩ =
      some ⟨binsOnly [(27, [6442450944]), (28, [4294967296])], 9663676416, 17179869184⟩ := by
    decide
  have h6 : Reach ⟨binsOnly [(27, [6442450944]), (28, [4294967296])], 9663676416, 17179869184⟩
      [(7516192768, ⟨2147483648, 8⟩), (2147483648, ⟨2147483648, 2147483648⟩)] :=
    Reach.dealloc h5 (by decide) e6
  have e7 : binDealloc ⟨binsOnly [(27, [6442450944]), (28, [4294967296])], 9663676416,
      17179869184⟩ 7516192768 ⟨2147483648, 8⟩ =
      some ⟨binsOnly [(27, [6442450944]), (28, [7516192768, 4294967296])], 9663676416,
        17179869184⟩ := by decide
  have h7 : Reach ⟨binsOnly [(27, [6442450944]), (28, [7516192768, 4294967296])], 9663676416,
      17179869184⟩ [(2147483648, ⟨2147483648, 2147483648⟩)] :=
    Reach.dealloc h6 (by decide) e7
  exact ⟨h7, by norm_num, by norm_num, by norm_num, by decide⟩

/-- **C3** (amended).  For every layout with positive `Layout`-representable
size and power-of-two alignment, and in every allocator state reachable
from a fresh allocator by alloc/dealloc calls that respect the allocator's
preconditions, whenever `alloc(layout)` returns normally it returns either
the null sentinel or an address `a` with `a mod layout.align == 0` and
`a + layout.size ≤ end` (the original claim fails only in that `alloc` can
also panic, per the counterexample). -/
theorem claim_C3 {σ : AllocState} {A : List (Nat × Layout)} (hR : Reach σ A)
    (L : Layout) (hpos : 0 < L.size) (hlt : L.size < 2 ^ 63) (hal : ∃ k, L.align = 2 ^ k)
    {a : Nat} {σ2 : AllocState} (hok : binAlloc σ L = .ok a σ2) :
    a % L.align = 0 ∧ a + L.size ≤ σ.free_end := by
  obtain ⟨hlen, hse, hfe, hbinv, _⟩ := reach_good hR
  have hsz64 : L.size < 2 ^ 64 := by
    have : (2:Nat) ^ 63 < 2 ^ 64 := by norm_num
    omega
  have hsize_le : L.size ≤ map_to_size (map_to_bin L.size) := le_map_to_size hpos hsz64
  rcases binAlloc_ok_shape hok with ⟨c, nodes, hnc, hmem, hal2, hck⟩ | ⟨ha, hfit⟩
  · constructor
    · have : (a % L.align == 0) = true := hal2
      simpa [is_aligned] using hal2
    · have hbfs : a + 2 ^ (c + 3) ≤ σ.free_start := hbinv c nodes hnc a hmem
      have hple : (2:Nat) ^ (map_to_bin L.size + 3) ≤ 2 ^ (c + 3) :=
        Nat.pow_le_pow_right (by norm_num) (by omega)
      rw [map_to_size_eq] at hsize_le
      omega
  · obtain ⟨_, hmod⟩ := align_up_some ha
    exact ⟨hmod, by omega⟩

/-- Witness for C3: a fresh heap over `[0, 64)` and an 8-byte request. -/
theorem claim_C3_witness :
    (0 : Nat) % 8 = 0 ∧ 0 + 8 ≤ (allocNew 0 64).free_end :=
  claim_C3 (Reach.fresh 0 64 (by norm_num) (by norm_num [USIZE])) ⟨8, 8⟩
    (by norm_num) (by norm_num) ⟨3, by norm_num⟩
    (by decide : binAlloc (allocNew 0 64) ⟨8, 8⟩ = .ok 0 ⟨List.replicate 29 [], 8, 64⟩)

end RustOS

namespace RustOS

theorem locate_aligned {va : Nat} (h : va % PAGE_SIZE = 0) :
    locate va = some ((va &&& (1 <<< 29)) >>> 29, (va &&& (0x1FFF <<< 16)) >>> 16) := by
  simp [locate, h]

theorem locate_i2_lt {va : Nat} : (va &&& (1 <<< 29)) >>> 29 < 2 := by
  have h1 : va &&& (1 <<< 29) ≤ 1 <<< 29 := Nat.and_le_right
  have h2 : (va &&& (1 <<< 29)) >>> 29 ≤ (1 <<< 29) >>> 29 := by
    simp only [Nat.shiftRight_eq_div_pow]
    exact Nat.div_le_div_right h1
  have h3 : ((1:Nat) <<< 29) >>> 29 = 1 := by decide
  omega

theorem locate_i3_lt {va : Nat} : (va &&& (0x1FFF <<< 16)) >>> 16 < 8192 := by
  have h1 : va &&& (0x1FFF <<< 16) ≤ 0x1FFF <<< 16 := Nat.and_le_right
  have h2 : (va &&& (0x1FFF <<< 16)) >>> 16 ≤ (0x1FFF <<< 16) >>> 16 := by
    simp only [Nat.shiftRight_eq_div_pow]
    exact Nat.div_le_div_right h1
  have h3 : ((0x1FFF:Nat) <<< 16) >>> 16 = 0x1FFF := by decide
  omega

theorem set_entry_some {pt : PageTable} {va : Nat} (e : RawL3Entry)
    (hwf : PTWF pt) (hva : va % PAGE_SIZE = 0) :
    ∃ t, pt.l3[(va &&& (1 <<< 29)) >>> 29]? = some t ∧
      set_entry pt va e =
        some ⟨pt.l3.set ((va &&& (1 <<< 29)) >>> 29)
          (t.set ((va &&& (0x1FFF <<< 16)) >>> 16) e)⟩ := by
  have h2 : (va &&& (1 <<< 29)) >>> 29 < pt.l3.length := by
    rw [hwf.1]
    exact locate_i2_lt
  have hsome := List.getElem?_eq_getElem h2
  refine ⟨pt.l3.get ⟨(va &&& (1 <<< 29)) >>> 29, h2⟩, hsome, ?_⟩
  simp only [set_entry, locate_aligned hva, hsome]
  rfl

theorem set_get_entry {pt : PageTable} {va : Nat} {e : RawL3Entry} {pt2 : PageTable}
    (hwf : PTWF pt) (hva : va % PAGE_SIZE = 0) (hset : set_entry pt va e = some pt2) :
    get_entry pt2 va = some e := by
  obtain ⟨t, hts, hse⟩ := set_entry_some e hwf hva
  rw [hse] at hset
  injection hset with hpt2
  have h2 : (va &&& (1 <<< 29)) >>> 29 < pt.l3.length := by
    rw [hwf.1]
    exact locate_i2_lt
  have htlen : t.length = 8192 := by
    apply hwf.2
    exact List.getElem?_mem hts
  have h3 : (va &&& (0x1FFF <<< 16)) >>> 16 < t.length := by
    rw [htlen]
    exact locate_i3_lt
  simp only [get_entry, locate_aligned hva, ← hpt2]
  simp only [List.getElem?_set_self h2]
  exact List.getElem?_set_self h3

end RustOS

namespace RustOS

theorem binAlloc_ok_mod {σ : AllocState} {L : Layout} {a : Nat} {σ2 : AllocState}
    (hok : binAlloc σ L = .ok a σ2) : a % L.align = 0 := by
  rcases binAlloc_ok_shape hok with ⟨c, nodes, _, _, hal2, _⟩ | ⟨ha, _⟩
  · simpa [is_aligned] using hal2
  · exact (align_up_some ha).2

theorem addrMasked_eq {p : Nat} (h48 : p < 2 ^ 48) (hal : p % 65536 = 0) :
    addrMasked p = p := by
  have hm : (0x0000FFFFFFFF0000 : Nat) = (2 ^ 32 - 1) <<< 16 := by
    rw [Nat.shiftLeft_eq]
    norm_num
  rw [addrMasked, hm]
  apply Nat.eq_of_testBit_eq
  intro i
  rw [Nat.testBit_and, Nat.testBit_shiftLeft, Nat.testBit_two_pow_sub_one]
  rcases lt_or_le i 16 with h16 | h16
  · have hp : p.testBit i = false := by
      rw [Nat.testBit_to_div_mod]
      obtain ⟨q, rfl⟩ := Nat.dvd_of_mod_eq_zero hal
      have he : (65536 : Nat) = 2 ^ i * 2 ^ (16 - i) := by
        rw [← pow_add]
        have : i + (16 - i) = 16 := by omega
        rw [this]
        norm_num
      rw [he, Nat.mul_assoc, Nat.mul_div_cancel_left _ (Nat.pos_pow_of_pos i (by norm_num))]
      have h2 : (2:Nat) ^ (16 - i) = 2 * 2 ^ (15 - i) := by
        rw [← pow_succ']
        congr 1
        omega
      rw [h2, Nat.mul_assoc, Nat.mul_mod_right]
      simp
    simp [hp]
  · rcases lt_or_le i 48 with h48i | h48i
    · have hge : decide (i ≥ 16) = true := by simp [h16]
      have hlt : decide (i - 16 < 32) = true := by simp; omega
      simp [hge, hlt]
    · have hp : p.testBit i = false := by
        apply Nat.testBit_lt_two_pow
        calc p < 2 ^ 48 := h48
        _ ≤ 2 ^ i := Nat.pow_le_pow_right (by norm_num) h48i
      have hlt : ¬ (i - 16 < 32) := by omega
      simp [hp, hlt]

/-- **C2** (amended).  `UserPageTable::alloc(va, _perm)` with a page-aligned
`va ≥ USER_IMG_BASE` allocates one 64 KiB page from the bin allocator and
installs an L3 entry for `va` with VALID=1, SH=0b11 (inner shareable), AF=1,
ADDR = the page's physical address, and AP=0b01 (EL0 read/write) **regardless
of the requested `perm`** (the code ignores `_perm`; see the TODO in
`vm.rs`).  A `va` below `USER_IMG_BASE` panics before touching the
allocator.  `RawL3Entry` and the AP encodings are modelled from the spec
(the `aarch64` crate is not in `src/`). -/
theorem claim_C2 (base : Nat) (σ : AllocState) (pt : PageTable) (va : Nat) (perm : PagePerm)
    (hwf : PTWF pt) (hb : base % PAGE_SIZE = 0) (hv : va % PAGE_SIZE = 0) :
    (∀ page σ2, base ≤ va → binAlloc σ pageLayout = .ok page σ2 → page ≠ 0 → page < 2 ^ 48 →
      ∃ pt2, uptAlloc base σ pt va perm = .ok σ2 pt2 page ∧
        get_entry pt2 (va - base) = some (mkUserL3Entry page) ∧
        (mkUserL3Entry page).valid = 1 ∧ (mkUserL3Entry page).sh = 0b11 ∧
        (mkUserL3Entry page).af = 1 ∧ (mkUserL3Entry page).addr = page ∧
        (mkUserL3Entry page).ap = 0b01) ∧
    (va < base → uptAlloc base σ pt va perm = .panicked σ) := by
  constructor
  · intro page σ2 hle hok h0 h48
    have hb6 : base % 65536 = 0 := hb
    have hv6 : va % 65536 = 0 := hv
    have hva2 : (va - base) % PAGE_SIZE = 0 := by
      show (va - base) % 65536 = 0
      omega
    have hpal : page % 65536 = 0 := binAlloc_ok_mod hok
    obtain ⟨t, hts, hse⟩ := set_entry_some (mkUserL3Entry page) hwf hva2
    refine ⟨_, ?_, set_get_entry hwf hva2 hse, rfl, rfl, rfl, ?_, rfl⟩
    · simp only [uptAlloc]
      rw [if_neg (show ¬ va < base by omega)]
      simp only [hok, if_neg h0, hse]
    · show addrMasked page = page
      exact addrMasked_eq h48 hpal
  · intro hlt
    simp only [uptAlloc]
    rw [if_pos hlt]

theorem PTWF_new : PTWF PageTable.new := by
  constructor
  · rfl
  · intro t ht
    rcases List.mem_cons.mp ht with rfl | ht2
    · exact List.length_replicate 8192 zeroL3
    · rcases List.mem_cons.mp ht2 with rfl | ht3
      · exact List.length_replicate 8192 zeroL3
      · exact absurd ht3 (List.not_mem_nil t)

/-- Counterexample to **C2** as stated: requesting a read-only (`RO`)
mapping still writes AP=0b01 (EL0 read/write), not the EL0 read-only
encoding 0b11, so the claim that the entry's AP reflects the requested
permission is false. -/
theorem claim_C2_counterexample :
    (match uptAlloc 4294967296 (allocNew 65536 262144) PageTable.new 4294967296
        PagePerm.RO with
      | .ok _ pt2 _ => (get_entry pt2 (4294967296 - 4294967296)).map (fun e => e.ap)
      | .panicked _ => none) = some 1 ∧
    apSpec PagePerm.RO = 3 ∧ (1 : Nat) ≠ 3 := by
  have hok : binAlloc (allocNew 65536 262144) pageLayout =
      .ok 65536 ⟨List.replicate 29 [], 131072, 262144⟩ := by decide
  have hva : (4294967296 - 4294967296) % PAGE_SIZE = 0 := by decide
  obtain ⟨t, hts, hse⟩ := set_entry_some (mkUserL3Entry 65536) PTWF_new hva
  have hget := set_get_entry PTWF_new hva hse
  refine ⟨?_, rfl, by norm_num⟩
  simp only [uptAlloc]
  rw [if_neg (show ¬ (4294967296 : Nat) < 4294967296 by norm_num)]
  simp only [hok, if_neg (show (65536 : Nat) ≠ 0 by norm_num), hse, hget, Option.map]
  rfl

/-- Witness for C2 at a concrete heap and `va = USER_IMG_BASE`. -/
theorem claim_C2_witness :
    ∃ pt2, uptAlloc 4294967296 (allocNew 65536 262144) PageTable.new 4294967296 PagePerm.RW =
        .ok ⟨List.replicate 29 [], 131072, 262144⟩ pt2 65536 ∧
      get_entry pt2 (4294967296 - 4294967296) = some (mkUserL3Entry 65536) ∧
      (mkUserL3Entry 65536).valid = 1 ∧ (mkUserL3Entry 65536).sh = 0b11 ∧
      (mkUserL3Entry 65536).af = 1 ∧ (mkUserL3Entry 65536).addr = 65536 ∧
      (mkUserL3Entry 65536).ap = 0b01 :=
  (claim_C2 4294967296 (allocNew 65536 262144) PageTable.new 4294967296 PagePerm.RW
    (by constructor
        · rfl
        · intro t ht
          rcases List.mem_cons.mp ht with rfl | ht2
          · exact List.length_replicate 8192 zeroL3
          · rcases List.mem_cons.mp ht2 with rfl | ht3
            · exact List.length_replicate 8192 zeroL3
            · exact absurd ht3 (List.not_mem_nil t))
    (by decide) (by decide)).1 65536 ⟨List.replicate 29 [], 131072, 262144⟩
    (by norm_num) (by decide) (by norm_num) (by norm_num)

end RustOS

namespace RustOS

theorem mem_drop1_append {α : Type} {p x : α} {l : List α}
    (h : p ∈ (l ++ [x]).drop 1) : p ∈ l.drop 1 ∨ p = x := by
  cases l with
  | nil => simp at h
  | cons a as =>
    simp only [List.cons_append, List.drop_succ_cons, List.drop_zero] at h
    rcases List.mem_append.mp h with h1 | h2
    · left; simpa using h1
    · right; simpa using h2

theorem drop1_eraseIdx_sub {α : Type} {l : List α} {i : Nat} :
    (l.eraseIdx i).drop 1 ⊆ l.drop 1 := by
  cases l with
  | nil => simp [List.eraseIdx]
  | cons a as =>
    cases i with
    | zero => simpa using List.drop_subset 1 as
    | succ j => simpa using List.eraseIdx_subset as j

theorem schedAdd_processes {s : SchedState} {p : Proc} {id : Nat} {s2 : SchedState}
    (h : schedAdd s p = some (id, s2)) :
    s2.processes = s.processes ++ [{ p with context := { p.context with tpidr := id } }] := by
  unfold schedAdd at h
  cases hl : s.last_id with
  | none =>
    simp only [hl, Option.some.injEq, Prod.mk.injEq] at h
    obtain ⟨h1, h2⟩ := h
    subst h1
    rw [← h2]
  | some last =>
    simp only [hl] at h
    by_cases hlt : last + 1 < 2 ^ 64
    · rw [if_pos hlt] at h
      simp only [Option.some.injEq, Prod.mk.injEq] at h
      obtain ⟨h1, h2⟩ := h
      subst h1
      rw [← h2]
    · rw [if_neg hlt] at h
      exact absurd h (by simp)

theorem schedule_out_tail {s : SchedState} {ns : PState} {tf : STrapFrame}
    (IH : ∀ p ∈ s.processes.drop 1, p.state ≠ .Running) (hns : ns ≠ .Running) :
    ∀ p ∈ (schedule_out s ns tf).2.processes.drop 1, p.state ≠ .Running := by
  intro q hq
  simp only [schedule_out] at hq
  cases hfi : s.processes.findIdx? (fun p => p.context.tpidr == tf.tpidr) with
  | none => simp only [hfi] at hq; exact IH q hq
  | some i =>
    simp only [hfi] at hq
    cases hgi : s.processes[i]? with
    | none => simp only [hgi] at hq; exact IH q hq
    | some w =>
      simp only [hgi] at hq
      rcases mem_drop1_append hq with h1 | rfl
      · exact IH q (drop1_eraseIdx_sub h1)
      · exact hns

theorem sreachR_tail {s : SchedState} (h : SReachR s) :
    ∀ p ∈ s.processes.drop 1, p.state ≠ .Running := by
  induction h with
  | new => intro p hp; simp [SchedState.new] at hp
  | @add s p id s2 h1 hst hadd IH =>
    intro q hq
    rw [schedAdd_processes hadd] at hq
    rcases mem_drop1_append hq with h1m | rfl
    · exact IH q h1m
    · show Proc.state _ ≠ _
      simp only [hst]
      simp
  | @schedule_out s ns tf h1 hns IH => exact schedule_out_tail IH hns
  | @switch_to s time tf h1 hnor IH =>
    intro q hq
    simp only [switch_to] at hq
    cases hfr : firstReady time s.processes with
    | none => simp only [hfr] at hq; exact IH q hq
    | some ip =>
      obtain ⟨i, p2⟩ := ip
      simp only [hfr] at hq
      have hq2 : q ∈ s.processes.eraseIdx i := by simpa using hq
      exact hnor q (List.eraseIdx_subset _ _ hq2)
  | @kill s tf h1 IH =>
    cases hso : schedule_out s PState.Dead tf with
    | mk b s2 =>
      have h2b : ∀ p ∈ s2.processes.drop 1, p.state ≠ .Running := by
        have h3 := @schedule_out_tail s PState.Dead tf IH (show PState.Dead ≠ PState.Running by simp)
        rw [hso] at h3
        exact h3
      cases b with
      | false =>
        intro q hq
        simp only [schedKill, hso] at hq
        exact IH q hq
      | true =>
        intro q hq
        simp only [schedKill, hso] at hq
        cases hfi : s2.processes.findIdx? (fun p => isDead p.state) with
        | none => simp only [hfi] at hq; exact h2b q hq
        | some i =>
          simp only [hfi] at hq
          cases hgi : s2.processes[i]? with
          | none => simp only [hgi] at hq; exact h2b q hq
          | some w =>
            simp only [hgi] at hq
            exact h2b q (drop1_eraseIdx_sub hq)

theorem isRunning_eq_false {st : PState} (h : st ≠ .Running) : isRunning st = false := by
  cases st with
  | Running => exact absurd rfl h
  | Ready => rfl
  | Dead => rfl
  | Waiting a b => rfl

theorem tail_no_run_filter {l : List Proc}
    (htl : ∀ p ∈ l.drop 1, p.state ≠ .Running) :
    (l.filter (fun p => isRunning p.state)).length ≤ 1 := by
  cases l with
  | nil => simp
  | cons a as =>
    have h2 : as.filter (fun p => isRunning p.state) = [] := by
      rw [List.filter_eq_nil_iff]
      intro p hp
      have hne := htl p (by simpa using hp)
      simp [isRunning_eq_false hne]
    rw [List.filter_cons, h2]
    by_cases hr : isRunning a.state = true
    · simp [hr]
    · simp [hr]

theorem tail_no_run_get {l : List Proc}
    (htl : ∀ p ∈ l.drop 1, p.state ≠ .Running)
    (i : Nat) (hi : i < l.length) (hr : (l.get ⟨i, hi⟩).state = .Running) : i = 0 := by
  cases l with
  | nil => exact absurd hi (by simp)
  | cons a as =>
    cases i with
    | zero => rfl
    | succ j =>
      have hj : j < as.length := by simpa using hi
      have hm : as.get ⟨j, hj⟩ ∈ as := List.get_mem as j hj
      exact absurd hr (htl _ (by simp))

/-- Counterexample to **C6** as stated: with unrestricted `switch_to`
(allowed by the claim's "any sequence of add, schedule_out, switch_to, and
kill"), calling `switch_to` twice without scheduling the running process
out first yields a reachable state with TWO Running processes, the older
of which is not at the head. -/
theorem claim_C6_counterexample :
    SReach ⟨[⟨⟨1, 0⟩, .Running⟩, ⟨⟨0, 0⟩, .Running⟩], some 1⟩ ∧
    (([⟨⟨1, 0⟩, .Running⟩, ⟨⟨0, 0⟩, .Running⟩] : List Proc).filter
        (fun p => isRunning p.state)).length = 2 := by
  constructor
  · have h0 : SReach SchedState.new := .new
    have h1 : SReach (⟨[⟨⟨0, 0⟩, .Ready⟩], some 0⟩ : SchedState) :=
      @SReach.add SchedState.new ⟨⟨0, 0⟩, .Ready⟩ 0 _ h0 rfl (by decide)
    have h2 : SReach (⟨[⟨⟨0, 0⟩, .Ready⟩, ⟨⟨1, 0⟩, .Ready⟩], some 1⟩ : SchedState) :=
      @SReach.add _ ⟨⟨0, 0⟩, .Ready⟩ 1 _ h1 rfl (by decide)
    have h3 := @SReach.switch_to _ 0 ⟨9, 9⟩ h2
    have e3 : (switch_to 0
        (⟨[⟨⟨0, 0⟩, .Ready⟩, ⟨⟨1, 0⟩, .Ready⟩], some 1⟩ : SchedState) ⟨9, 9⟩).2.2 =
        ⟨[⟨⟨0, 0⟩, .Running⟩, ⟨⟨1, 0⟩, .Ready⟩], some 1⟩ := by decide
    rw [e3] at h3
    have h4 := @SReach.switch_to _ 0 ⟨9, 9⟩ h3
    have e4 : (switch_to 0
        (⟨[⟨⟨0, 0⟩, .Running⟩, ⟨⟨1, 0⟩, .Ready⟩], some 1⟩ : SchedState) ⟨9, 9⟩).2.2 =
        ⟨[⟨⟨1, 0⟩, .Running⟩, ⟨⟨0, 0⟩, .Running⟩], some 1⟩ := by decide
    rw [e4] at h4
    exact h4
  · decide

/-- **C6** (amended).  The invariant holds provided `switch_to` is only
called in states with no Running process, which is how the kernel calls
it (`GlobalScheduler::switch` always schedules the running process out
first): in every state so reachable, at most one process is Running and
any Running process sits at the head of the queue.  (Raw `switch_to`
without that discipline can produce two Running processes, see the
counterexample.) -/
theorem claim_C6 (s : SchedState) (h : SReachR s) :
    (s.processes.filter (fun p => isRunning p.state)).length ≤ 1 ∧
    ∀ i (hi : i < s.processes.length),
      (s.processes.get ⟨i, hi⟩).state = .Running → i = 0 := by
  have tl := sreachR_tail h
  exact ⟨tail_no_run_filter tl, fun i hi hr => tail_no_run_get tl i hi hr⟩

/-- Witness for C6: the state after add, add, switch_to (legally invoked). -/
theorem claim_C6_witness :
    ((⟨[⟨⟨0, 0⟩, .Running⟩, ⟨⟨1, 0⟩, .Ready⟩], some 1⟩ : SchedState).processes.filter
        (fun p => isRunning p.state)).length ≤ 1 ∧
    ∀ i (hi : i <
        (⟨[⟨⟨0, 0⟩, .Running⟩, ⟨⟨1, 0⟩, .Ready⟩], some 1⟩ : SchedState).processes.length),
      ((⟨[⟨⟨0, 0⟩, .Running⟩, ⟨⟨1, 0⟩, .Ready⟩], some 1⟩ :
          SchedState).processes.get ⟨i, hi⟩).state = .Running → i = 0 := by
  apply claim_C6
  have h0 : SReachR SchedState.new := .new
  have h1 : SReachR (⟨[⟨⟨0, 0⟩, .Ready⟩], some 0⟩ : SchedState) :=
    @SReachR.add SchedState.new ⟨⟨0, 0⟩, .Ready⟩ 0 _ h0 rfl (by decide)
  have h2 : SReachR (⟨[⟨⟨0, 0⟩, .Ready⟩, ⟨⟨1, 0⟩, .Ready⟩], some 1⟩ : SchedState) :=
    @SReachR.add _ ⟨⟨0, 0⟩, .Ready⟩ 1 _ h1 rfl (by decide)
  have h3 := @SReachR.switch_to _ 0 ⟨9, 9⟩ h2 (by decide)
  have e3 : (switch_to 0
      (⟨[⟨⟨0, 0⟩, .Ready⟩, ⟨⟨1, 0⟩, .Ready⟩], some 1⟩ : SchedState) ⟨9, 9⟩).2.2 =
      ⟨[⟨⟨0, 0⟩, .Running⟩, ⟨⟨1, 0⟩, .Ready⟩], some 1⟩ := by decide
  rw [e3] at h3
  exact h3

theorem isReadyPoll_waiting (time start ms : Nat) (c : STrapFrame) :
    isReadyPoll time ⟨c, .Waiting start ms⟩ =
      if ms ≤ (time % 2 ^ 32 + 2 ^ 32 - start) % 2 ^ 32 then
        (true, ⟨⟨c.tpidr, (time % 2 ^ 32 + 2 ^ 32 - start) % 2 ^ 32⟩, .Ready⟩)
      else (false, ⟨c, .Waiting start ms⟩) := rfl

/-- **C7.**  The sleep predicate built by `sys_sleep(ms)` at time `now`
fires on a poll at `time` exactly when the wrapping 32-bit difference
`time - start` (with `start = now as u32`) is at least `ms`; when it
fires it writes that elapsed value (which is ≥ ms) into `x_regs[0]` and
the process becomes Ready with its `tpidr` untouched; while it does not
fire the process is left exactly as it was (same Waiting predicate). -/
theorem claim_C7 (now ms time : Nat) (p : Proc) (hp : p.state = sys_sleep now ms) :
    ((isReadyPoll time p).1 = true ↔
      ms ≤ (time % 2 ^ 32 + 2 ^ 32 - now % 2 ^ 32) % 2 ^ 32) ∧
    ((isReadyPoll time p).1 = true →
      (isReadyPoll time p).2.context.x0 =
          (time % 2 ^ 32 + 2 ^ 32 - now % 2 ^ 32) % 2 ^ 32 ∧
        ms ≤ (isReadyPoll time p).2.context.x0 ∧
        (isReadyPoll time p).2.state = .Ready ∧
        (isReadyPoll time p).2.context.tpidr = p.context.tpidr) ∧
    ((isReadyPoll time p).1 = false → (isReadyPoll time p).2 = p) := by
  obtain ⟨c, st⟩ := p
  have hst : st = PState.Waiting (now % 2 ^ 32) ms := hp
  subst hst
  rw [isReadyPoll_waiting]
  by_cases hle : ms ≤ (time % 2 ^ 32 + 2 ^ 32 - now % 2 ^ 32) % 2 ^ 32
  · rw [if_pos hle]
    refine ⟨iff_of_true rfl hle, fun _ => ⟨rfl, hle, rfl, rfl⟩, by simp⟩
  · rw [if_neg hle]
    exact ⟨iff_of_false (by simp) hle, by simp, fun _ => rfl⟩

/-- Witness for C7 across a u32 wrap: slept at `now = 2^32 - 6`, polled at
`time = 5`, so 11 ms have elapsed and a 10 ms sleep fires with `x0 = 11`. -/
theorem claim_C7_witness :
    ((isReadyPoll 5 ⟨⟨3, 0⟩, sys_sleep 4294967290 10⟩).1 = true ↔
      10 ≤ (5 % 2 ^ 32 + 2 ^ 32 - 4294967290 % 2 ^ 32) % 2 ^ 32) ∧
    ((isReadyPoll 5 ⟨⟨3, 0⟩, sys_sleep 4294967290 10⟩).1 = true →
      (isReadyPoll 5 ⟨⟨3, 0⟩, sys_sleep 4294967290 10⟩).2.context.x0 =
          (5 % 2 ^ 32 + 2 ^ 32 - 4294967290 % 2 ^ 32) % 2 ^ 32 ∧
        10 ≤ (isReadyPoll 5 ⟨⟨3, 0⟩, sys_sleep 4294967290 10⟩).2.context.x0 ∧
        (isReadyPoll 5 ⟨⟨3, 0⟩, sys_sleep 4294967290 10⟩).2.state = .Ready ∧
        (isReadyPoll 5 ⟨⟨3, 0⟩, sys_sleep 4294967290 10⟩).2.context.tpidr =
          (⟨⟨3, 0⟩, sys_sleep 4294967290 10⟩ : Proc).context.tpidr) ∧
    ((isReadyPoll 5 ⟨⟨3, 0⟩, sys_sleep 4294967290 10⟩).1 = false →
      (isReadyPoll 5 ⟨⟨3, 0⟩, sys_sleep 4294967290 10⟩).2 =
        ⟨⟨3, 0⟩, sys_sleep 4294967290 10⟩) :=
  claim_C7 4294967290 10 5 ⟨⟨3, 0⟩, sys_sleep 4294967290 10⟩ rfl

end RustOS

namespace RustOS

theorem insert_len : ∀ (f : Nat) (σ : AllocState) (b sz : Nat) (σ2 : AllocState),
    insert_block f σ b sz = some σ2 → σ2.bins.length = σ.bins.length := by
  intro f
  induction f with
  | zero => intro σ b sz σ2 h; exact absurd h (by simp [insert_block])
  | succ g ih =>
    intro σ b sz σ2 h
    simp only [insert_block] at h
    cases hn : σ.bins[map_to_bin sz]? with
    | none => rw [hn] at h; exact absurd h (by simp)
    | some nodes =>
      simp only [hn] at h
      cases hfn : findNeighbor nodes b (map_to_size (map_to_bin sz)) with
      | none =>
        simp only [hfn, Option.some.injEq] at h
        rw [← h]
        simp [setBin]
      | some lr =>
        obtain ⟨low, rest⟩ := lr
        simp only [hfn] at h
        have := ih (setBin σ (map_to_bin sz) rest) low (sz * 2) σ2 h
        simpa [setBin] using this

theorem findNeighbor_strong : ∀ {nodes : List Nat} {block curr low : Nat} {rest : List Nat},
    findNeighbor nodes block curr = some (low, rest) →
    ∃ n, n ∈ nodes ∧ ((low = n ∧ n + curr = block) ∨ (low = block ∧ block + curr = n)) ∧
      ∀ y ∈ nodes, y ∈ rest ∨ y = n := by
  intro nodes
  induction nodes with
  | nil => intro block curr low rest h; exact absurd h (by simp [findNeighbor])
  | cons a as ih =>
    intro block curr low rest h
    simp only [findNeighbor] at h
    by_cases h1 : a + curr = block
    · rw [if_pos h1] at h
      simp only [Option.some.injEq, Prod.mk.injEq] at h
      obtain ⟨hlow, hrest⟩ := h
      refine ⟨a, List.mem_cons_self a as, Or.inl ⟨hlow.symm, h1⟩, ?_⟩
      intro y hy
      rcases List.mem_cons.mp hy with rfl | hy2
      · right; rfl
      · left; rw [← hrest]; exact hy2
    · rw [if_neg h1] at h
      by_cases h2 : block + curr = a
      · rw [if_pos h2] at h
        simp only [Option.some.injEq, Prod.mk.injEq] at h
        obtain ⟨hlow, hrest⟩ := h
        refine ⟨a, List.mem_cons_self a as, Or.inr ⟨hlow.symm, h2⟩, ?_⟩
        intro y hy
        rcases List.mem_cons.mp hy with rfl | hy2
        · right; rfl
        · left; rw [← hrest]; exact hy2
      · rw [if_neg h2] at h
        cases hr : findNeighbor as block curr with
        | none => rw [hr] at h; exact absurd h (by simp)
        | some p =>
          obtain ⟨low2, rest2⟩ := p
          simp only [hr, Option.some.injEq, Prod.mk.injEq] at h
          obtain ⟨hlow, hrest⟩ := h
          obtain ⟨n, hnmem, hrel, hall⟩ := ih hr
          refine ⟨n, List.mem_cons_of_mem a hnmem, by rw [hlow] at hrel; exact hrel, ?_⟩
          intro y hy
          rcases List.mem_cons.mp hy with rfl | hy2
          · left; rw [← hrest]; exact List.mem_cons_self y rest2
          · rcases hall y hy2 with hyr | hyn
            · left; rw [← hrest]; exact List.mem_cons_of_mem a hyr
            · right; exact hyn

theorem insert_covers : ∀ (f : Nat) (σ : AllocState) (b m : Nat) (σ2 : AllocState),
    σ.bins.length = 29 → m + 3 < 64 →
    insert_block f σ b (2 ^ (m + 3)) = some σ2 →
    ∀ x, b ≤ x → x < b + 2 ^ (m + 3) → covered σ2 x := by
  intro f
  induction f with
  | zero => intro σ b m σ2 _ _ h; exact absurd h (by simp [insert_block])
  | succ g ih =>
    intro σ b m σ2 hlen hm h
    have hmb : map_to_bin (2 ^ (m + 3)) = m := map_to_bin_pow m hm
    have hms : map_to_size m = 2 ^ (m + 3) := map_to_size_eq m
    simp only [insert_block, hmb, hms] at h
    cases hn : σ.bins[m]? with
    | none => rw [hn] at h; exact absurd h (by simp)
    | some nodes =>
      have hm29 : m < 29 := by
        have := (List.getElem?_eq_some_iff.mp hn).1
        omega
      simp only [hn] at h
      cases hfn : findNeighbor nodes b (2 ^ (m + 3)) with
      | none =>
        simp only [hfn, Option.some.injEq] at h
        intro x hx1 hx2
        refine ⟨m, b :: nodes, b, ?_, List.mem_cons_self b nodes, hx1, hx2⟩
        rw [← h]
        show ((σ.bins.set m (b :: nodes)))[m]? = some (b :: nodes)
        exact List.getElem?_set_self (by omega)
      | some lr =>
        obtain ⟨low, rest⟩ := lr
        simp only [hfn] at h
        have hpow : (2 : Nat) ^ (m + 3) * 2 = 2 ^ (m + 1 + 3) := by
          rw [← pow_succ]
        rw [hpow] at h
        obtain ⟨n, hnmem, hrel, hall⟩ := findNeighbor_strong hfn
        have hlen2 : (setBin σ m rest).bins.length = 29 := by simp [setBin, hlen]
        have hcov := ih (setBin σ m rest) low (m + 1) σ2 hlen2 (by omega) h
        intro x hx1 hx2
        have h2p : (2 : Nat) ^ (m + 1 + 3) = 2 ^ (m + 3) * 2 := by rw [← pow_succ]
        rcases hrel with ⟨hl, he⟩ | ⟨hl, he⟩
        · exact hcov x (by omega) (by omega)
        · exact hcov x (by omega) (by omega)

theorem insert_preserves : ∀ (f : Nat) (σ : AllocState) (b m : Nat) (σ2 : AllocState),
    σ.bins.length = 29 → m + 3 < 64 →
    insert_block f σ b (2 ^ (m + 3)) = some σ2 →
    ∀ x, covered σ x → covered σ2 x := by
  intro f
  induction f with
  | zero => intro σ b m σ2 _ _ h; exact absurd h (by simp [insert_block])
  | succ g ih =>
    intro σ b m σ2 hlen hm h
    have hmb : map_to_bin (2 ^ (m + 3)) = m := map_to_bin_pow m hm
    have hms : map_to_size m = 2 ^ (m + 3) := map_to_size_eq m
    simp only [insert_block, hmb, hms] at h
    cases hn : σ.bins[m]? with
    | none => rw [hn] at h; exact absurd h (by simp)
    | some nodes =>
      have hm29 : m < 29 := by
        have := (List.getElem?_eq_some_iff.mp hn).1
        omega
      simp only [hn] at h
      cases hfn : findNeighbor nodes b (2 ^ (m + 3)) with
      | none =>
        simp only [hfn, Option.some.injEq] at h
        intro x hx
        obtain ⟨j, nodesj, c, hj, hc, h1, h2⟩ := hx
        by_cases hjm : j = m
        · rw [hjm] at hj
          rw [hn] at hj
          injection hj with hj2
          rw [← hj2] at hc
          refine ⟨m, b :: nodes, c, ?_, List.mem_cons_of_mem b hc, h1, by rw [hjm] at h2; exact h2⟩
          rw [← h]
          show (σ.bins.set m (b :: nodes))[m]? = some (b :: nodes)
          exact List.getElem?_set_self (by omega)
        · refine ⟨j, nodesj, c, ?_, hc, h1, h2⟩
          rw [← h]
          show (σ.bins.set m (b :: nodes))[j]? = some nodesj
          rw [List.getElem?_set_ne (fun hh => hjm hh.symm)]
          exact hj
      | some lr =>
        obtain ⟨low, rest⟩ := lr
        simp only [hfn] at h
        have hpow : (2 : Nat) ^ (m + 3) * 2 = 2 ^ (m + 1 + 3) := by
          rw [← pow_succ]
        rw [hpow] at h
        obtain ⟨n, hnmem, hrel, hall⟩ := findNeighbor_strong hfn
        have hlen2 : (setBin σ m rest).bins.length = 29 := by simp [setBin, hlen]
        have h2p : (2 : Nat) ^ (m + 1 + 3) = 2 ^ (m + 3) * 2 := by rw [← pow_succ]
        intro x hx
        obtain ⟨j, nodesj, c, hj, hc, h1, h2⟩ := hx
        by_cases hjm : j = m
        · rw [hjm] at hj h2
          rw [hn] at hj
          injection hj with hj2
          rw [← hj2] at hc
          rcases hall c hc with hcr | hcn
          · refine ih (setBin σ m rest) low (m + 1) σ2 hlen2 (by omega) h x
              ⟨m, rest, c, ?_, hcr, h1, h2⟩
            show (σ.bins.set m rest)[m]? = some rest
            exact List.getElem?_set_self (by omega)
          · rw [hcn] at h1 h2
            have hcov := insert_covers g (setBin σ m rest) low (m + 1) σ2 hlen2 (by omega) h
            rcases hrel with ⟨hl, he⟩ | ⟨hl, he⟩
            · exact hcov x (by omega) (by omega)
            · exact hcov x (by omega) (by omega)
        · refine ih (setBin σ m rest) low (m + 1) σ2 hlen2 (by omega) h x
            ⟨j, nodesj, c, ?_, hc, h1, h2⟩
          show (σ.bins.set m rest)[j]? = some nodesj
          rw [List.getElem?_set_ne (fun hh => hjm hh.symm)]
          exact hj

theorem dropGo_deallocList : ∀ (l : List RawL3Entry) (σ : AllocState),
    dropGo σ l = deallocList σ ((l.filter (fun e => e.valid == 1)).map (fun e => e.addr)) := by
  intro l
  induction l with
  | nil => intro σ; rfl
  | cons e rest ih =>
    intro σ
    by_cases hv : e.valid = 1
    · have hf : (e :: rest).filter (fun e => e.valid == 1) =
          e :: rest.filter (fun e => e.valid == 1) := by
        simp [List.filter_cons, hv]
      rw [hf]
      simp only [dropGo, if_pos hv, List.map_cons, deallocList]
      cases hd : binDealloc σ e.addr pageLayout with
      | none => simp only [hd]
      | some σ2 => simp only [hd]; exact ih σ2
    · have hf : (e :: rest).filter (fun e => e.valid == 1) =
          rest.filter (fun e => e.valid == 1) := by
        simp [List.filter_cons, hv]
      rw [hf]
      simp only [dropGo, if_neg hv]
      exact ih σ

theorem binDealloc_page (σ : AllocState) (a : Nat) :
    binDealloc σ a pageLayout = insert_block 30 σ a (2 ^ (13 + 3)) := rfl

theorem deallocList_covered : ∀ (l : List Nat) (σ σ2 : AllocState), σ.bins.length = 29 →
    deallocList σ l = some σ2 →
    σ2.bins.length = 29 ∧ (∀ x, covered σ x → covered σ2 x) ∧ ∀ a ∈ l, covered σ2 a := by
  intro l
  induction l with
  | nil =>
    intro σ σ2 hlen h
    simp only [deallocList, Option.some.injEq] at h
    subst h
    exact ⟨hlen, fun x hx => hx, by simp⟩
  | cons a rest ih =>
    intro σ σ2 hlen h
    simp only [deallocList] at h
    cases hd : binDealloc σ a pageLayout with
    | none => rw [hd] at h; exact absurd h (by simp)
    | some σ1 =>
      simp only [hd] at h
      rw [binDealloc_page] at hd
      have hlen1 : σ1.bins.length = 29 := by
        rw [insert_len 30 σ a (2 ^ (13 + 3)) σ1 hd]
        exact hlen
      obtain ⟨hL, hpres, hall⟩ := ih σ1 σ2 hlen1 h
      refine ⟨hL, fun x hx =>
        hpres x (insert_preserves 30 σ a 13 σ1 hlen (by norm_num) hd x hx), ?_⟩
      intro y hy
      rcases List.mem_cons.mp hy with rfl | hy2
      · refine hpres y (insert_covers 30 σ y 13 σ1 hlen (by norm_num) hd y le_rfl ?_)
        have : (0 : Nat) < 2 ^ (13 + 3) := by norm_num
        omega
      · exact hall y hy2

/-- **C4.**  Dropping a `UserPageTable` deallocates, with the 64 KiB page
layout and in iteration order, the ADDR of exactly those L3 entries whose
VALID bit is 1 (first part: the drop equals deallocating the list of
valid ADDRs), and when the drop finishes without a panic every such
address lies inside some block of some free list afterwards (second
part).  `LinkedList`/`IntoIterator` are modelled from the spec as in-order
iteration. -/
theorem claim_C4 (σ : AllocState) (pt : PageTable) (σ2 : AllocState)
    (hlen : σ.bins.length = 29) (h : dropUPT σ pt = some σ2) :
    dropUPT σ pt = deallocList σ (validPageAddrs pt) ∧
    ∀ a ∈ validPageAddrs pt, covered σ2 a := by
  have he : dropUPT σ pt = deallocList σ (validPageAddrs pt) :=
    dropGo_deallocList (ptEntries pt) σ
  refine ⟨he, ?_⟩
  rw [he] at h
  exact (deallocList_covered (validPageAddrs pt) σ σ2 hlen h).2.2

/-- Witness for C4: a one-page table over a fresh heap; the page at
`65536` ends up in free list 13. -/
theorem claim_C4_witness :
    (dropUPT (allocNew 131072 262144) ⟨[[mkUserL3Entry 65536, zeroL3]]⟩ =
      deallocList (allocNew 131072 262144)
        (validPageAddrs ⟨[[mkUserL3Entry 65536, zeroL3]]⟩)) ∧
    ∀ a ∈ validPageAddrs ⟨[[mkUserL3Entry 65536, zeroL3]]⟩,
      covered ⟨(List.replicate 29 []).set 13 [65536], 131072, 262144⟩ a :=
  claim_C4 (allocNew 131072 262144) ⟨[[mkUserL3Entry 65536, zeroL3]]⟩
    ⟨(List.replicate 29 []).set 13 [65536], 131072, 262144⟩ (by decide) (by decide)

end RustOS

namespace RustOS

theorem bump_alloc_page (fs fe : Nat) (hmod : fs % 65536 = 0) (hle : fs + 65536 ≤ fe)
    (hfe : fe < 2 ^ 64) :
    binAlloc ⟨List.replicate 29 [], fs, fe⟩ pageLayout =
      .ok fs ⟨List.replicate 29 [], fs + 65536, fe⟩ := by
  apply binAlloc_bump
  · exact scan_bins_empty 30 _ fs fe _
  · exact get_block_bump ⟨List.replicate 29 [], fs, fe⟩ pageLayout
      (align_up_aligned (by decide) (by decide) hmod) hle hfe

theorem getpair_same {α : Type} (r : α) {i : Nat} (hi : i < 2) : [r, r][i]? = some r := by
  rcases i with _ | _ | k
  · rfl
  · rfl
  · omega

theorem filter_set_single {α : Type} {p : α → Bool} {l : List α} {i : Nat} {e : α}
    (hall : ∀ x ∈ l, p x = false) (hi : i < l.length) (he : p e = true) :
    (l.set i e).filter p = [e] := by
  induction l generalizing i with
  | nil => simp at hi
  | cons a as ih =>
    cases i with
    | zero =>
      show (e :: as).filter p = [e]
      have has : as.filter p = [] := List.filter_eq_nil_iff.mpr (fun x hx => by
        rw [hall x (List.mem_cons_of_mem a hx)]; simp)
      simp [List.filter_cons, he, has]
    | succ j =>
      show (a :: as.set j e).filter p = [e]
      have hj : j < as.length := by simpa using hi
      have ha : p a = false := hall a (List.mem_cons_self a as)
      simp [List.filter_cons, ha,
        ih (fun x hx => hall x (List.mem_cons_of_mem a hx)) hj]

theorem zero_filter :
    (List.replicate 8192 zeroL3).filter (fun x => x.valid == 1) = [] :=
  List.filter_eq_nil_iff.mpr (fun x hx => by
    rw [List.eq_of_mem_replicate hx]; simp [zeroL3])

theorem validPageAddrs_pair_set {i2 i3 : Nat} {e : RawL3Entry} (hi2 : i2 < 2)
    (hi3 : i3 < 8192) (he : (e.valid == 1) = true) :
    validPageAddrs ⟨[List.replicate 8192 zeroL3, List.replicate 8192 zeroL3].set i2
      ((List.replicate 8192 zeroL3).set i3 e)⟩ = [e.addr] := by
  have hf1 : ((List.replicate 8192 zeroL3).set i3 e).filter (fun x => x.valid == 1) = [e] :=
    filter_set_single (fun x hx => by rw [List.eq_of_mem_replicate hx]; rfl)
      (by rw [List.length_replicate]; exact hi3) he
  rcases i2 with _ | _ | k
  · show validPageAddrs ⟨[(List.replicate 8192 zeroL3).set i3 e,
      List.replicate 8192 zeroL3]⟩ = [e.addr]
    simp only [validPageAddrs, ptEntries, List.foldr_cons, List.foldr_nil, List.append_nil,
      List.filter_append, zero_filter, hf1, List.map_cons, List.map_nil, List.cons_append,
      List.nil_append]
  · show validPageAddrs ⟨[List.replicate 8192 zeroL3,
      (List.replicate 8192 zeroL3).set i3 e]⟩ = [e.addr]
    simp only [validPageAddrs, ptEntries, List.foldr_cons, List.foldr_nil, List.append_nil,
      List.filter_append, zero_filter, hf1, List.map_cons, List.map_nil, List.cons_append,
      List.nil_append]
  · omega

theorem mem_pair_set_entries {i2 i3 : Nat} {e x : RawL3Entry} (hi2 : i2 < 2)
    (hx : x ∈ ptEntries ⟨[List.replicate 8192 zeroL3, List.replicate 8192 zeroL3].set i2
      ((List.replicate 8192 zeroL3).set i3 e)⟩) : x = e ∨ x = zeroL3 := by
  rcases i2 with _ | _ | k
  · have hx0 : x ∈ ptEntries ⟨[(List.replicate 8192 zeroL3).set i3 e,
        List.replicate 8192 zeroL3]⟩ := hx
    have hx2 : x ∈ (List.replicate 8192 zeroL3).set i3 e ∨
        x ∈ List.replicate 8192 zeroL3 := by
      simp only [ptEntries, List.foldr_cons, List.foldr_nil, List.append_nil,
        List.mem_append] at hx0
      exact hx0
    rcases hx2 with h | h
    · rcases List.mem_or_eq_of_mem_set h with h2 | h2
      · right; exact List.eq_of_mem_replicate h2
      · left; exact h2
    · right; exact List.eq_of_mem_replicate h
  · have hx0 : x ∈ ptEntries ⟨[List.replicate 8192 zeroL3,
        (List.replicate 8192 zeroL3).set i3 e]⟩ := hx
    have hx2 : x ∈ List.replicate 8192 zeroL3 ∨
        x ∈ (List.replicate 8192 zeroL3).set i3 e := by
      simp only [ptEntries, List.foldr_cons, List.foldr_nil, List.append_nil,
        List.mem_append] at hx0
      exact hx0
    rcases hx2 with h | h
    · right; exact List.eq_of_mem_replicate h
    · rcases List.mem_or_eq_of_mem_set h with h2 | h2
      · right; exact List.eq_of_mem_replicate h2
      · left; exact h2
  · omega

/-- **C10** (implicit claim, confirmed).  Calling `UserPageTable::alloc`
twice with the same page-aligned `va ≥ USER_IMG_BASE`, starting from a
fresh allocator over `[S, E)`: the second call does not detect the
existing mapping — it allocates a second page `S + 65536` and overwrites
the L3 entry with it; afterwards no valid entry carries the first page's
address `S`, and dropping the table returns only `S + 65536` to the free
lists, so the first page is never reclaimed (`S` is covered by no free
block). -/
theorem claim_C10 (base va S E : Nat) (perm : PagePerm)
    (hb : base % PAGE_SIZE = 0) (hv : va % PAGE_SIZE = 0) (hle : base ≤ va)
    (hS : S % 65536 = 0) (hS0 : 0 < S) (hsum : S + 131072 ≤ E) (hE48 : E ≤ 2 ^ 48) :
    ∃ pt1 pt2 : PageTable,
      uptAlloc base (allocNew S E) PageTable.new va perm =
        .ok ⟨List.replicate 29 [], S + 65536, E⟩ pt1 S ∧
      uptAlloc base ⟨List.replicate 29 [], S + 65536, E⟩ pt1 va perm =
        .ok ⟨List.replicate 29 [], S + 131072, E⟩ pt2 (S + 65536) ∧
      get_entry pt2 (va - base) = some (mkUserL3Entry (S + 65536)) ∧
      (∀ e ∈ ptEntries pt2, e.valid = 1 → e.addr = S + 65536) ∧
      S + 65536 ≠ S ∧
      dropUPT ⟨List.replicate 29 [], S + 131072, E⟩ pt2 =
        some ⟨(List.replicate 29 []).set 13 [S + 65536], S + 131072, E⟩ ∧
      ¬ covered ⟨(List.replicate 29 []).set 13 [S + 65536], S + 131072, E⟩ S := by
  have hE64 : E < 2 ^ 64 := lt_of_le_of_lt hE48 (by norm_num)
  have hb6 : base % 65536 = 0 := hb
  have hv6 : va % 65536 = 0 := hv
  have hva2 : (va - base) % PAGE_SIZE = 0 := by
    show (va - base) % 65536 = 0
    omega
  have hb1 : binAlloc (allocNew S E) pageLayout =
      .ok S ⟨List.replicate 29 [], S + 65536, E⟩ :=
    bump_alloc_page S E hS (by omega) hE64
  have hb2 : binAlloc ⟨List.replicate 29 [], S + 65536, E⟩ pageLayout =
      .ok (S + 65536) ⟨List.replicate 29 [], S + 131072, E⟩ := by
    have h := bump_alloc_page (S + 65536) E (by omega) (by omega) hE64
    have he2 : S + 65536 + 65536 = S + 131072 := by omega
    rw [he2] at h
    exact h
  obtain ⟨t1, hts1, hse1⟩ := set_entry_some (mkUserL3Entry S) PTWF_new hva2
  have hp1 : PageTable.new.l3[(va - base &&& 1 <<< 29) >>> 29]? =
      some (List.replicate 8192 zeroL3) := by
    show [List.replicate 8192 zeroL3,
      List.replicate 8192 zeroL3][(va - base &&& 1 <<< 29) >>> 29]? = _
    exact getpair_same _ locate_i2_lt
  rw [hp1] at hts1
  injection hts1 with ht1
  rw [← ht1] at hse1
  have hrun1 : uptAlloc base (allocNew S E) PageTable.new va perm =
      .ok ⟨List.replicate 29 [], S + 65536, E⟩
        ⟨PageTable.new.l3.set ((va - base &&& 1 <<< 29) >>> 29)
          ((List.replicate 8192 zeroL3).set ((va - base &&& 8191 <<< 16) >>> 16)
            (mkUserL3Entry S))⟩ S := by
    simp only [uptAlloc]
    rw [if_neg (not_lt.mpr hle)]
    simp only [hb1, if_neg (show ¬ S = 0 by omega), hse1]
  have hwf1 : PTWF ⟨PageTable.new.l3.set ((va - base &&& 1 <<< 29) >>> 29)
      ((List.replicate 8192 zeroL3).set ((va - base &&& 8191 <<< 16) >>> 16)
        (mkUserL3Entry S))⟩ := by
    constructor
    · show (PageTable.new.l3.set _ _).length = 2
      rw [List.length_set]
      rfl
    · intro t ht
      rcases List.mem_or_eq_of_mem_set ht with htm | rfl
      · exact PTWF_new.2 t htm
      · rw [List.length_set]
        exact List.length_replicate 8192 zeroL3
  obtain ⟨t2, hts2, hse2⟩ := set_entry_some (mkUserL3Entry (S + 65536)) hwf1 hva2
  have hp2 : (PageTable.mk (PageTable.new.l3.set ((va - base &&& 1 <<< 29) >>> 29)
      ((List.replicate 8192 zeroL3).set ((va - base &&& 8191 <<< 16) >>> 16)
        (mkUserL3Entry S)))).l3[(va - base &&& 1 <<< 29) >>> 29]? =
      some ((List.replicate 8192 zeroL3).set ((va - base &&& 8191 <<< 16) >>> 16)
        (mkUserL3Entry S)) := by
    show (PageTable.new.l3.set _ _)[(va - base &&& 1 <<< 29) >>> 29]? = _
    exact List.getElem?_set_self (by
      show (va - base &&& 1 <<< 29) >>> 29 < PageTable.new.l3.length
      rw [PTWF_new.1]
      exact locate_i2_lt)
  rw [hp2] at hts2
  injection hts2 with ht2
  rw [← ht2] at hse2
  have hlset : (PageTable.new.l3.set ((va - base &&& 1 <<< 29) >>> 29)
      ((List.replicate 8192 zeroL3).set ((va - base &&& 8191 <<< 16) >>> 16)
        (mkUserL3Entry S))).set ((va - base &&& 1 <<< 29) >>> 29)
      (((List.replicate 8192 zeroL3).set ((va - base &&& 8191 <<< 16) >>> 16)
          (mkUserL3Entry S)).set ((va - base &&& 8191 <<< 16) >>> 16)
        (mkUserL3Entry (S + 65536))) =
      PageTable.new.l3.set ((va - base &&& 1 <<< 29) >>> 29)
        ((List.replicate 8192 zeroL3).set ((va - base &&& 8191 <<< 16) >>> 16)
          (mkUserL3Entry (S + 65536))) := by
    rw [List.set_set, List.set_set]
  have hse2n : set_entry ⟨PageTable.new.l3.set ((va - base &&& 1 <<< 29) >>> 29)
      ((List.replicate 8192 zeroL3).set ((va - base &&& 8191 <<< 16) >>> 16)
        (mkUserL3Entry S))⟩ (va - base) (mkUserL3Entry (S + 65536)) =
      some ⟨PageTable.new.l3.set ((va - base &&& 1 <<< 29) >>> 29)
        ((List.replicate 8192 zeroL3).set ((va - base &&& 8191 <<< 16) >>> 16)
          (mkUserL3Entry (S + 65536)))⟩ := by
    rw [hse2]
    exact congrArg (fun l => some (PageTable.mk l)) hlset
  have hrun2 : uptAlloc base ⟨List.replicate 29 [], S + 65536, E⟩
      ⟨PageTable.new.l3.set ((va - base &&& 1 <<< 29) >>> 29)
        ((List.replicate 8192 zeroL3).set ((va - base &&& 8191 <<< 16) >>> 16)
          (mkUserL3Entry S))⟩ va perm =
      .ok ⟨List.replicate 29 [], S + 131072, E⟩
        ⟨PageTable.new.l3.set ((va - base &&& 1 <<< 29) >>> 29)
          ((List.replicate 8192 zeroL3).set ((va - base &&& 8191 <<< 16) >>> 16)
            (mkUserL3Entry (S + 65536)))⟩ (S + 65536) := by
    simp only [uptAlloc]
    rw [if_neg (not_lt.mpr hle)]
    simp only [hb2, if_neg (show ¬ S + 65536 = 0 by omega), hse2n]
  have hget : get_entry ⟨PageTable.new.l3.set ((va - base &&& 1 <<< 29) >>> 29)
      ((List.replicate 8192 zeroL3).set ((va - base &&& 8191 <<< 16) >>> 16)
        (mkUserL3Entry (S + 65536)))⟩ (va - base) = some (mkUserL3Entry (S + 65536)) := by
    have h := set_get_entry hwf1 hva2 hse2
    rw [← hlset]
    exact h
  have h48 : S + 65536 < 2 ^ 48 := by
    have : (131072 : Nat) ≤ 2 ^ 48 := by norm_num
    omega
  have haddr : (mkUserL3Entry (S + 65536)).addr = S + 65536 :=
    addrMasked_eq h48 (by omega)
  have hvp : validPageAddrs ⟨PageTable.new.l3.set ((va - base &&& 1 <<< 29) >>> 29)
      ((List.replicate 8192 zeroL3).set ((va - base &&& 8191 <<< 16) >>> 16)
        (mkUserL3Entry (S + 65536)))⟩ = [S + 65536] := by
    have h := @validPageAddrs_pair_set ((va - base &&& 1 <<< 29) >>> 29)
      ((va - base &&& 8191 <<< 16) >>> 16) (mkUserL3Entry (S + 65536))
      locate_i2_lt locate_i3_lt rfl
    rw [haddr] at h
    exact h
  refine ⟨_, _, hrun1, hrun2, hget, ?_, by omega, ?_, ?_⟩
  · intro e he hev
    have hm : e = mkUserL3Entry (S + 65536) ∨ e = zeroL3 :=
      mem_pair_set_entries locate_i2_lt he
    rcases hm with rfl | rfl
    · exact haddr
    · exact absurd hev (by decide)
  · have hdeq : dropUPT ⟨List.replicate 29 [], S + 131072, E⟩
        ⟨PageTable.new.l3.set ((va - base &&& 1 <<< 29) >>> 29)
          ((List.replicate 8192 zeroL3).set ((va - base &&& 8191 <<< 16) >>> 16)
            (mkUserL3Entry (S + 65536)))⟩ =
        deallocList ⟨List.replicate 29 [], S + 131072, E⟩
          (validPageAddrs ⟨PageTable.new.l3.set ((va - base &&& 1 <<< 29) >>> 29)
            ((List.replicate 8192 zeroL3).set ((va - base &&& 8191 <<< 16) >>> 16)
              (mkUserL3Entry (S + 65536)))⟩) :=
      dropGo_deallocList _ _
    rw [hdeq, hvp]
    have hins : binDealloc ⟨List.replicate 29 [], S + 131072, E⟩ (S + 65536) pageLayout =
        some ⟨(List.replicate 29 []).set 13 [S + 65536], S + 131072, E⟩ := rfl
    simp only [deallocList, hins]
  · rintro ⟨j, nodes, b2, hj, hbm, hble, hblt⟩
    by_cases hj13 : j = 13
    · subst hj13
      rw [List.getElem?_set_self (by rw [List.length_replicate]; omega)] at hj
      injection hj with hj2
      rw [← hj2] at hbm
      have hb2 : b2 = S + 65536 := by simpa using hbm
      omega
    · rw [List.getElem?_set_ne (fun hh => hj13 hh.symm)] at hj
      rw [List.getElem?_replicate] at hj
      by_cases hjlt : j < 29
      · rw [if_pos hjlt] at hj
        injection hj with hj2
        rw [← hj2] at hbm
        simp at hbm
      · rw [if_neg hjlt] at hj
        exact absurd hj (by simp)

/-- Witness for C10: `base = va = USER_IMG_BASE`, heap `[65536, 262144)`. -/
theorem claim_C10_witness :
    ∃ pt1 pt2 : PageTable,
      uptAlloc 4294967296 (allocNew 65536 262144) PageTable.new 4294967296 PagePerm.RW =
        .ok ⟨List.replicate 29 [], 65536 + 65536, 262144⟩ pt1 65536 ∧
      uptAlloc 4294967296 ⟨List.replicate 29 [], 65536 + 65536, 262144⟩ pt1 4294967296
          PagePerm.RW =
        .ok ⟨List.replicate 29 [], 65536 + 131072, 262144⟩ pt2 (65536 + 65536) ∧
      get_entry pt2 (4294967296 - 4294967296) = some (mkUserL3Entry (65536 + 65536)) ∧
      (∀ e ∈ ptEntries pt2, e.valid = 1 → e.addr = 65536 + 65536) ∧
      65536 + 65536 ≠ 65536 ∧
      dropUPT ⟨List.replicate 29 [], 65536 + 131072, 262144⟩ pt2 =
        some ⟨(List.replicate 29 []).set 13 [65536 + 65536], 65536 + 131072, 262144⟩ ∧
      ¬ covered ⟨(List.replicate 29 []).set 13 [65536 + 65536], 65536 + 131072, 262144⟩
        65536 :=
  claim_C10 4294967296 4294967296 65536 262144 PagePerm.RW (by decide) (by decide)
    (by norm_num) (by decide) (by decide) (by norm_num) (by norm_num)

end RustOS
